import Mathlib

/-!
Verification of the `coding-war-crimes` repository: shallow embeddings of the
day scripts that the specification's claims talk about, followed by theorems
settling each claim.

Conventions used throughout:
* Python strings are embedded as `List Char`; `ord`/`chr` become
  `Char.toNat`/`Char.ofNat`.
* Python `while` loops that have no termination argument in the source are
  embedded with an explicit fuel parameter; an exhausted fuel is a
  distinguished result value, never silently conflated with a real result.
* Python indexed `for i in range(...)` loops over strings are embedded as
  simultaneous structural recursion over the (suffixes of the) traversed
  strings: iteration `i` of the Python loop reads position `i`, which is the
  head of the suffix after `i` steps.
-/

namespace Day001

/-- `days_001__FizzBuzz.py`, `fizzbuzz`: prints one line per `i` in
`range(1, n+1)`, computed by the nested ternary chain.  The embedding returns
the list of printed lines. -/
def fizzbuzz (n : Nat) : List String :=
  (List.range' 1 n).map (fun i =>
    if i % 15 = 0 then "FizzBuzz"
    else if i % 3 = 0 then "Fizz"
    else if i % 5 = 0 then "Buzz"
    else toString i)

end Day001

/-- C7: for every `n ≥ 1` and `1 ≤ i ≤ n`, the `i`-th line printed by
`fizzbuzz n` is `"FizzBuzz"` when `15 ∣ i`, else `"Fizz"` when `3 ∣ i`, else
`"Buzz"` when `5 ∣ i`, else the decimal string of `i`; in particular the 15th
line of `fizzbuzz 15` is `"FizzBuzz"`, the 9th of `fizzbuzz 9` is `"Fizz"`,
the 10th of `fizzbuzz 10` is `"Buzz"` and the 7th of `fizzbuzz 7` is `"7"`. -/
theorem fizzbuzz_lines (n i : Nat) (h1 : 1 ≤ i) (h2 : i ≤ n) :
    (Day001.fizzbuzz n).get? (i - 1) =
      some (if i % 15 = 0 then "FizzBuzz"
            else if i % 3 = 0 then "Fizz"
            else if i % 5 = 0 then "Buzz"
            else toString i) := by
  have hlt : i - 1 < n := by omega
  unfold Day001.fizzbuzz
  rw [List.get?_eq_getElem?, List.getElem?_map]
  rw [List.getElem?_range' 1 1 hlt]
  have he : 1 + 1 * (i - 1) = i := by omega
  rw [Option.map_some', he]

/-- Witness for C7: the four concrete lines named by the spec. -/
theorem fizzbuzz_lines_witness :
    (Day001.fizzbuzz 15).get? 14 = some "FizzBuzz" ∧
    (Day001.fizzbuzz 9).get? 8 = some "Fizz" ∧
    (Day001.fizzbuzz 10).get? 9 = some "Buzz" ∧
    (Day001.fizzbuzz 7).get? 6 = some "7" := by
  refine ⟨?_, ?_, ?_, ?_⟩
  · have := fizzbuzz_lines 15 15 (by decide) (by decide)
    simpa using this
  · have := fizzbuzz_lines 9 9 (by decide) (by decide)
    simpa using this
  · have := fizzbuzz_lines 10 10 (by decide) (by decide)
    simpa using this
  · have := fizzbuzz_lines 7 7 (by decide) (by decide)
    simpa using this

namespace Day002

/-! ## `days_002__war_Calculator.py`

Strings are embedded as `List Char`; `ord`/`chr` are `Char.toNat`/`Char.ofNat`.
The indexed loops of `add_strings`/`subtract_strings` walk the reversed
operands; they are embedded as structural recursion on the traversed
suffixes (iteration `i` of the Python loop reads position `i`, the head of
the suffix after `i` steps, and advances past position `i` in every string
it indexes). -/

/-- `PRECISION = 5`. -/
def PRECISION : Nat := 5

/-- `strip_leading_zeros(s)`: `s.lstrip("0") or "0"`. -/
def strip_leading_zeros (s : List Char) : List Char :=
  let t := s.dropWhile (· = '0')
  if t = [] then ['0'] else t

/-- Python's `str.rstrip` with a one-character argument. -/
def rstrip (c : Char) (s : List Char) : List Char :=
  (s.reverse.dropWhile (· = c)).reverse

/-- `normalize_decimal(s)`: if `"." in s`, `s.rstrip("0").rstrip(".")`. -/
def normalize_decimal (s : List Char) : List Char :=
  if '.' ∈ s then rstrip '.' (rstrip '0' s) else s

/-- `align_decimals(a, b)`: append `".0"` to a dotless operand, then pad the
shorter fractional part with `"0"`s. -/
def align_decimals (a b : List Char) : List Char × List Char :=
  let a := if '.' ∈ a then a else a ++ ['.', '0']
  let b := if '.' ∈ b then b else b ++ ['.', '0']
  let da := a.length - a.indexOf '.' - 1
  let db := b.length - b.indexOf '.' - 1
  if da > db then (a, b ++ List.replicate (da - db) '0')
  else if db > da then (a ++ List.replicate (db - da) '0', b)
  else (a, b)

/-- The `for i in range(max(len(a), len(b)))` loop body of `add_strings`,
acting on the reversed operands; returns Python's `res` list (output digits
least-significant first, before the final reversal).  When position `i` is
past the end of one operand, the corresponding digit is `0`; when either
operand holds `"."` at position `i`, a `"."` is emitted and the position is
skipped in both operands, keeping the carry. -/
def addLoop : List Char → List Char → Nat → List Char
  | [], [], carry => if carry ≠ 0 then [Char.ofNat (carry + 48)] else []
  | a :: ar, [], carry =>
    if a = '.' then '.' :: addLoop ar [] carry
    else
      let total := (a.toNat - 48) + carry
      Char.ofNat (total % 10 + 48) :: addLoop ar [] (total / 10)
  | [], b :: br, carry =>
    if b = '.' then '.' :: addLoop [] br carry
    else
      let total := (b.toNat - 48) + carry
      Char.ofNat (total % 10 + 48) :: addLoop [] br (total / 10)
  | a :: ar, b :: br, carry =>
    if a = '.' ∨ b = '.' then '.' :: addLoop ar br carry
    else
      let total := (a.toNat - 48) + (b.toNat - 48) + carry
      Char.ofNat (total % 10 + 48) :: addLoop ar br (total / 10)

/-- `add_strings(a, b)`. -/
def add_strings (a b : List Char) : List Char :=
  let p := if '.' ∈ a ∨ '.' ∈ b then align_decimals a b else (a, b)
  normalize_decimal (addLoop p.1.reverse p.2.reverse 0).reverse

/-- The `for i in range(len(a))` loop body of `subtract_strings` on the
reversed operands (`a` here is the reversed first operand); `da` is a Python
`int`, so it is an `Int` here (it can be `-1` after the borrow).  Returns
Python's `res` list, least-significant first. -/
def subLoop : List Char → List Char → Int → List Char
  | [], _, _ => []
  | a :: ar, br, borrow =>
    if a = '.' then '.' :: subLoop ar br.tail borrow
    else
      let da : Int := (a.toNat : Int) - 48 - borrow
      let db : Int :=
        match br.head? with
        | some b => if b ≠ '.' then (b.toNat : Int) - 48 else 0
        | none => 0
      if da < db then Char.ofNat ((da + 10 - db + 48).toNat) :: subLoop ar br.tail 1
      else Char.ofNat ((da - db + 48).toNat) :: subLoop ar br.tail 0

/-- `subtract_strings(a, b)`. -/
def subtract_strings (a b : List Char) : List Char :=
  let p := if '.' ∈ a ∨ '.' ∈ b then align_decimals a b else (a, b)
  normalize_decimal (strip_leading_zeros (subLoop p.1.reverse p.2.reverse 0).reverse)

/-- Inner loop of `multiply_strings`: one partial product digit row
(`for da in a[::-1]`), with the multiplier digit value `db` fixed;
returns Python's `temp` entries after the `["0"] * i` block. -/
def mulLoopInner : List Char → Nat → Nat → List Char
  | [], _, carry => if carry ≠ 0 then [Char.ofNat (carry + 48)] else []
  | a :: ar, db, carry =>
    let prod := (a.toNat - 48) * db + carry
    Char.ofNat (prod % 10 + 48) :: mulLoopInner ar db (prod / 10)

/-- Outer loop of `multiply_strings` (`for i, db in enumerate(b[::-1])`),
folding partial products into `res` with `add_strings`. -/
def mulLoopOuter (arev : List Char) : List Char → Nat → List Char → List Char
  | [], _, res => res
  | b :: brev, i, res =>
    let temp := List.replicate i '0' ++ mulLoopInner arev (b.toNat - 48) 0
    mulLoopOuter arev brev (i + 1) (add_strings res temp.reverse)

/-- `multiply_strings(a, b)`. -/
def multiply_strings (a b : List Char) : List Char :=
  let decs := a.count '.' + b.count '.'
  let a := a.filter (· ≠ '.')
  let b := b.filter (· ≠ '.')
  let res := mulLoopOuter a.reverse b.reverse 0 ['0']
  let res :=
    if decs ≠ 0 then
      res.take (res.length - decs) ++ '.' :: res.drop (res.length - decs)
    else res
  normalize_decimal res

/-- Result of a call that may raise `ZeroDivisionError` or, in the
embedding, run out of fuel (the Python loop has no bound of its own). -/
inductive DivResult where
  | zeroDiv
  | ok (s : List Char)
  | outOfFuel
deriving DecidableEq

/-- The `while subtract_strings(remainder, b)[0] != "-":` loop of
`divide_strings`, with fuel; returns the final `(remainder, count)` or
`none` when the fuel is exhausted. -/
def divLoop (b : List Char) : Nat → List Char → Nat → Option (List Char × Nat)
  | 0, _, _ => none
  | fuel + 1, remainder, count =>
    if (subtract_strings remainder b).headD ' ' ≠ '-' then
      divLoop b fuel (subtract_strings remainder b) (count + 1)
    else
      some (remainder, count)

/-- The `for digit in a:` loop of `divide_strings`: accumulates quotient
characters; each digit position restarts the inner `while` with the given
fuel. -/
def divDigits (b : List Char) (fuel : Nat) :
    List Char → List Char → List Char → Option (List Char × List Char)
  | [], remainder, quot => some (quot, remainder)
  | d :: ds, remainder, quot =>
    match divLoop b fuel (strip_leading_zeros (remainder ++ [d])) 0 with
    | none => none
    | some (r, count) => divDigits b fuel ds r (quot ++ [Char.ofNat (count + 48)])

/-- `divide_strings(a, b)`:  `raise ZeroDivisionError` when `b == "0"`,
otherwise long division by repeated subtraction. -/
def divide_strings (fuel : Nat) (a b : List Char) : DivResult :=
  if b = ['0'] then .zeroDiv
  else
    let decs : Int :=
      (if '.' ∈ a then ((a.length - a.indexOf '.' - 1 : Nat) : Int) else 0) -
        (if '.' ∈ b then ((b.length - b.indexOf '.' - 1 : Nat) : Int) else 0)
    let a := a.filter (· ≠ '.')
    let b := b.filter (· ≠ '.')
    let a := a ++ List.replicate PRECISION '0'
    match divDigits b fuel a ['0'] [] with
    | none => .outOfFuel
    | some (quot, _) =>
      let res := strip_leading_zeros quot
      let res :=
        if decs + (PRECISION : Int) > 0 then
          let k := (decs + (PRECISION : Int)).toNat
          res.take (res.length - k) ++ '.' :: res.drop (res.length - k)
        else res
      .ok (normalize_decimal res)

/-- `string_calculator(x, y, op)`: the conditional-expression dispatch. -/
def string_calculator (fuel : Nat) (x y op : List Char) : DivResult :=
  if op = ['+'] then .ok (add_strings x y)
  else if op = ['-'] then .ok (subtract_strings x y)
  else if op = ['*'] then .ok (multiply_strings x y)
  else if op = ['/'] then divide_strings fuel x y
  else .ok ['E', 'R', 'R']

end Day002

namespace Day002

/-- The five remainder strings through which the inner `while` loop of
`divide_strings "10" "4"` cycles: subtracting `"4"` from any of them yields
another of them (never a string starting with `"-"`, which
`subtract_strings` cannot produce), so the loop's exit test never fires. -/
def divCycle : List (List Char) := [['1'], ['7'], ['3'], ['9'], ['5']]

theorem divCycle_step : ∀ r ∈ divCycle,
    subtract_strings r ['4'] ∈ divCycle ∧
    (subtract_strings r ['4']).headD ' ' ≠ '-' := by decide

theorem divLoop_four_none (fuel : Nat) :
    ∀ r count, r ∈ divCycle → divLoop ['4'] fuel r count = none := by
  induction fuel with
  | zero => intro r count _; rfl
  | succ n ih =>
    intro r count hr
    have h := divCycle_step r hr
    rw [divLoop, if_pos h.2]
    exact ih _ _ h.1

end Day002

/-- C1: `divide_strings` does not terminate on `("10", "4")` — for every
fuel bound the embedded computation runs out of fuel, because the inner
`while` loop's exit test compares the first character of
`subtract_strings(remainder, "4")` with `"-"` and `subtract_strings` never
emits a leading `"-"`: the remainder cycles through
`"1" → "7" → "3" → "9" → "5" → "1" → …` forever.  Consequently
`string_calculator("10", "4", "/")` never returns `"2.5"` (it never returns
at all). -/
theorem divide_strings_ten_four_diverges (fuel : Nat) :
    Day002.divide_strings fuel ['1', '0'] ['4'] = Day002.DivResult.outOfFuel ∧
    Day002.string_calculator fuel ['1', '0'] ['4'] ['/'] = Day002.DivResult.outOfFuel := by
  have h1 : Day002.divLoop ['4'] fuel ['1'] 0 = none :=
    Day002.divLoop_four_none fuel ['1'] 0 (by decide)
  have hd : Day002.divide_strings fuel ['1', '0'] ['4'] = Day002.DivResult.outOfFuel := by
    simp [Day002.divide_strings, Day002.divDigits, Day002.strip_leading_zeros, h1]
  refine ⟨hd, ?_⟩
  show Day002.divide_strings fuel ['1', '0'] ['4'] = Day002.DivResult.outOfFuel
  exact hd

namespace Day002

/-- Besides the initial `b == "0"` guard, no branch of `divide_strings`
produces the `ZeroDivisionError` outcome. -/
theorem divide_strings_ne_zeroDiv (fuel : Nat) (a b : List Char) (h : b ≠ ['0']) :
    divide_strings fuel a b ≠ DivResult.zeroDiv := by
  unfold divide_strings
  rw [if_neg h]
  split <;> split <;>
    rcases hdd : divDigits (List.filter (fun x => !decide (x = '.')) b) fuel
      (List.filter (fun x => !decide (x = '.')) a ++ List.replicate PRECISION '0') ['0'] []
      with _ | ⟨quot, r⟩ <;>
    simp [hdd]

/-- Spec-side definition (following the claim's words, for C5): a divisor
string denotes the value zero when it is made of digits and at most one
decimal point, has at least one digit, and all of its digits are `0`
(e.g. `"0"`, `"0.0"`). -/
def denotesZero (s : List Char) : Bool :=
  s.all (fun c => c.isDigit || c = '.') && s.count '.' ≤ 1 &&
    s.any (fun c => c.isDigit) && s.all (fun c => !c.isDigit || c = '0')

end Day002

/-- C5 (amended): `string_calculator(x, y, "/")` raises `ZeroDivisionError`
exactly when the divisor is the literal string `"0"` — not when it merely
denotes the value zero.  The raise is local to `divide_strings`: no other
branch of the division path produces the error. -/
theorem string_calculator_div_zero_iff (fuel : Nat) (x y : List Char) :
    Day002.string_calculator fuel x y ['/'] = Day002.DivResult.zeroDiv ↔ y = ['0'] := by
  unfold Day002.string_calculator
  rw [if_neg (by decide), if_neg (by decide), if_neg (by decide), if_pos rfl]
  constructor
  · intro h
    by_contra hy
    exact Day002.divide_strings_ne_zeroDiv fuel x y hy h
  · intro h
    subst h
    unfold Day002.divide_strings
    rw [if_pos rfl]

/-- Counterexample for C5 as stated: the divisor `"0.0"` denotes the value
zero, yet `string_calculator("1", "0.0", "/")` does not raise
`ZeroDivisionError` (the guard compares against the literal `"0"` only). -/
theorem string_calculator_div_zero_counterexample :
    Day002.denotesZero ['0', '.', '0'] = true ∧
    Day002.string_calculator 30 ['1'] ['0', '.', '0'] ['/'] ≠ Day002.DivResult.zeroDiv := by
  refine ⟨by decide, ?_⟩
  intro h
  rw [Day002.string_calculator, if_neg (by decide), if_neg (by decide), if_neg (by decide),
    if_pos rfl] at h
  exact Day002.divide_strings_ne_zeroDiv 30 ['1'] ['0', '.', '0'] (by decide) h

namespace Day017

/-! ## `days_017__Reversed_bit_roles.py`

Python's `str`/`int` conversions on the bit strings are embedded at the
character-list level (`pyStr`/`pyInt`), matching `str(n)` and `int(s)` on
decimal digit strings. -/

/-- Python's `str(n)` for a natural number, as a character list. -/
def pyStr (n : Nat) : List Char := Nat.toDigits 10 n

/-- Python's `int(s)` on a decimal digit string. -/
def pyInt (s : List Char) : Nat := s.foldl (fun n c => 10 * n + (c.toNat - 48)) 0

/-- The per-character bit extraction of `reverse_string_via_binary_shifts`:
`bits = [str((value >> i) & 1) for i in range(8)]` — the low eight bits of
the code point, least significant first, stored as strings. -/
def bitsOf (value : Nat) : List (List Char) :=
  (List.range 8).map (fun i => pyStr ((value >>> i) &&& 1))

/-- The reconstruction loop: `for i, bit in enumerate(bits)` over the
reversed bit list, `reconstructed |= int(bit) << (7 - i)`. -/
def reconstructOf (bits : List (List Char)) : Nat :=
  bits.enum.foldl (fun acc p => acc ||| (pyInt p.2 <<< (7 - p.1))) 0

/-- `reverse_string_via_binary_shifts(text)`: per character, extract the low
eight bits, reverse them, reconstruct, and `chr` the result; the collected
characters are joined in reverse order. -/
def reverse_string_via_binary_shifts (text : List Char) : List Char :=
  (text.map (fun char => Char.ofNat (reconstructOf (bitsOf char.toNat).reverse))).reverse

/-- `reverse_string_correct(text)`: `text[::-1]`. -/
def reverse_string_correct (text : List Char) : List Char :=
  text.reverse

set_option maxRecDepth 8192 in
/-- The bit dance computes exactly the low eight bits of the code point. -/
theorem reconstructOf_bitsOf : ∀ v < 256, reconstructOf (bitsOf v).reverse = v := by decide

end Day017

/-- C10: on strings all of whose characters have code points below 256,
`reverse_string_via_binary_shifts` agrees with `reverse_string_correct`
(plain reversal); beyond that range the two can disagree, e.g. on
`"Ā"` (U+0100), whose low eight bits are all zero. -/
theorem reverse_binary_shifts_eq_correct :
    (∀ text : List Char, (∀ c ∈ text, c.toNat < 256) →
      Day017.reverse_string_via_binary_shifts text = Day017.reverse_string_correct text) ∧
    Day017.reverse_string_via_binary_shifts ['Ā'] ≠ Day017.reverse_string_correct ['Ā'] := by
  constructor
  · intro text h
    unfold Day017.reverse_string_via_binary_shifts Day017.reverse_string_correct
    have hmap : text.map (fun char => Char.ofNat
        (Day017.reconstructOf (Day017.bitsOf char.toNat).reverse)) = text := by
      have := List.map_congr_left (l := text)
        (f := fun char => Char.ofNat (Day017.reconstructOf (Day017.bitsOf char.toNat).reverse))
        (g := id) (fun c hc => by
          simp only [Day017.reconstructOf_bitsOf c.toNat (h c hc), id_eq, Char.ofNat_toNat])
      simpa using this
    rw [hmap]
  · have h0 : Day017.reconstructOf (Day017.bitsOf 'Ā'.toNat).reverse = 0 := by decide
    simp only [Day017.reverse_string_via_binary_shifts, Day017.reverse_string_correct,
      List.map_cons, List.map_nil, h0, List.reverse_cons, List.reverse_nil, List.nil_append]
    decide

/-- Witness for C10: a concrete two-character ASCII string. -/
theorem reverse_binary_shifts_eq_correct_witness :
    (∀ c ∈ ['a', 'b'], c.toNat < 256) ∧
    Day017.reverse_string_via_binary_shifts ['a', 'b'] =
      Day017.reverse_string_correct ['a', 'b'] :=
  ⟨by decide, reverse_binary_shifts_eq_correct.1 ['a', 'b'] (by decide)⟩

namespace Day021

/-! ## `days_021__stack_wrestling.py`

A Python list used as a stack (`append`/`pop` at the right end) is embedded
as a Lean list with the stack top at the head. -/

/-- One `while src: dst.append(src.pop())` transfer loop: repeatedly pop the
top of `src` and push it onto `dst`. -/
def moveAll {α : Type} : List α → List α → List α
  | [], dst => dst
  | x :: src, dst => moveAll src (x :: dst)

/-- `QueueUsingTwoFightingStacks`: its two stacks. -/
structure FightingStacks (α : Type) where
  stack_a : List α
  stack_b : List α

/-- A fresh `QueueUsingTwoFightingStacks()`. -/
def FightingStacks.empty {α : Type} : FightingStacks α := ⟨[], []⟩

/-- `enqueue`: evacuate `stack_a` onto `stack_b`, push the new value onto the
now-empty `stack_a`, then move everything back (leaving `stack_b` empty). -/
def FightingStacks.enqueue {α : Type} (s : FightingStacks α) (value : α) :
    FightingStacks α :=
  let b := moveAll s.stack_a s.stack_b
  let a := [value]
  ⟨moveAll b a, []⟩

/-- `dequeue`: `IndexError` on an empty queue; otherwise evacuate `stack_a`
onto `stack_b`, pop `stack_b`'s top, move the rest back.  (The `[]` inner
branch is unreachable: `stack_b` is nonempty after evacuating a nonempty
`stack_a`.) -/
def FightingStacks.dequeue {α : Type} (s : FightingStacks α) :
    Except Unit (α × FightingStacks α) :=
  if s.stack_a.isEmpty then .error ()
  else
    match moveAll s.stack_a s.stack_b with
    | [] => .error ()
    | v :: rest => .ok (v, ⟨moveAll rest [], []⟩)

/-- `peek`: like `dequeue` but reads `stack_b[-1]` without popping and moves
everything back. -/
def FightingStacks.peek {α : Type} (s : FightingStacks α) :
    Except Unit (α × FightingStacks α) :=
  if s.stack_a.isEmpty then .error ()
  else
    match moveAll s.stack_a s.stack_b with
    | [] => .error ()
    | v :: rest => .ok (v, ⟨moveAll (v :: rest) [], []⟩)

/-- `QueueUsingTwoStacksCorrect`: its two stacks. -/
structure CorrectQueue (α : Type) where
  stack_in : List α
  stack_out : List α

/-- A fresh `QueueUsingTwoStacksCorrect()`. -/
def CorrectQueue.empty {α : Type} : CorrectQueue α := ⟨[], []⟩

/-- Correct `enqueue`: push onto `stack_in`. -/
def CorrectQueue.enqueue {α : Type} (s : CorrectQueue α) (value : α) : CorrectQueue α :=
  ⟨value :: s.stack_in, s.stack_out⟩

/-- Correct `dequeue`: lazily transfer `stack_in` to `stack_out` when the
latter is empty, then pop `stack_out` (or `IndexError` if still empty). -/
def CorrectQueue.dequeue {α : Type} (s : CorrectQueue α) :
    Except Unit (α × CorrectQueue α) :=
  let out := if s.stack_out.isEmpty then moveAll s.stack_in [] else s.stack_out
  let inn := if s.stack_out.isEmpty then [] else s.stack_in
  match out with
  | [] => .error ()
  | v :: rest => .ok (v, ⟨inn, rest⟩)

/-- A sequence of `enqueue` calls on the fighting-stacks queue. -/
def enqueueAll {α : Type} (s : FightingStacks α) (vs : List α) : FightingStacks α :=
  vs.foldl FightingStacks.enqueue s

/-- A sequence of `enqueue` calls on the correct queue. -/
def enqueueAllCorrect {α : Type} (s : CorrectQueue α) (vs : List α) : CorrectQueue α :=
  vs.foldl CorrectQueue.enqueue s

theorem moveAll_eq {α : Type} : ∀ src dst : List α, moveAll src dst = src.reverse ++ dst := by
  intro src
  induction src with
  | nil => intro dst; simp [moveAll]
  | cons x xs ih => intro dst; simp [moveAll, ih]

theorem enqueueAll_empty_b {α : Type} :
    ∀ (vs : List α) (a : List α), enqueueAll ⟨a, []⟩ vs = ⟨a ++ vs, []⟩ := by
  intro vs
  induction vs with
  | nil => intro a; simp [enqueueAll]
  | cons v vs ih =>
    intro a
    have h1 : FightingStacks.enqueue ⟨a, []⟩ v = ⟨a ++ [v], []⟩ := by
      simp [FightingStacks.enqueue, moveAll_eq]
    show enqueueAll (FightingStacks.enqueue ⟨a, []⟩ v) vs = _
    rw [h1]
    have := ih (a ++ [v])
    simpa using this

theorem enqueueAllCorrect_spec {α : Type} :
    ∀ (vs : List α) (inn : List α), enqueueAllCorrect ⟨inn, []⟩ vs = ⟨vs.reverse ++ inn, []⟩ := by
  intro vs
  induction vs with
  | nil => intro inn; simp [enqueueAllCorrect]
  | cons v vs ih =>
    intro inn
    show enqueueAllCorrect (CorrectQueue.enqueue ⟨inn, []⟩ v) vs = _
    have := ih (v :: inn)
    simp [CorrectQueue.enqueue] at this ⊢
    rw [this]

end Day021

/-- C9: after `n ≥ 1` enqueues of `v₁, …, vₙ` on a fresh
`QueueUsingTwoFightingStacks` (no intervening dequeues), `dequeue()` returns
`vₙ` — the most recently enqueued value — and `peek()` also returns `vₙ`
(leaving the state unchanged), i.e. LIFO order; the same enqueues on
`QueueUsingTwoStacksCorrect` make `dequeue()` return `v₁`.  The two classes
are therefore not observationally equivalent as queues. -/
theorem fighting_stacks_lifo {α : Type} (vs : List α) (h : vs ≠ []) :
    (Day021.enqueueAll Day021.FightingStacks.empty vs).dequeue =
      .ok (vs.getLast h, ⟨vs.dropLast, []⟩) ∧
    (Day021.enqueueAll Day021.FightingStacks.empty vs).peek =
      .ok (vs.getLast h, ⟨vs, []⟩) ∧
    (Day021.enqueueAllCorrect Day021.CorrectQueue.empty vs).dequeue =
      .ok (vs.head h, ⟨[], vs.tail⟩) := by
  induction vs using List.reverseRecOn with
  | nil => exact absurd rfl h
  | append_singleton ys y ih => ?_
  clear ih
  have hstate : Day021.enqueueAll Day021.FightingStacks.empty (ys ++ [y]) =
      ⟨ys ++ [y], []⟩ := by
    simpa using Day021.enqueueAll_empty_b (ys ++ [y]) []
  have hrev : (ys ++ [y]).reverse = y :: ys.reverse := by simp
  have hcstate : Day021.enqueueAllCorrect Day021.CorrectQueue.empty (ys ++ [y]) =
      ⟨(ys ++ [y]).reverse, []⟩ := by
    simpa using Day021.enqueueAllCorrect_spec (ys ++ [y]) []
  refine ⟨?_, ?_, ?_⟩
  · rw [hstate, Day021.FightingStacks.dequeue, if_neg (by simp)]
    simp only [Day021.moveAll_eq, List.append_nil, hrev]
    simp [List.getLast_concat, List.dropLast_concat]
  · rw [hstate, Day021.FightingStacks.peek, if_neg (by simp)]
    simp only [Day021.moveAll_eq, List.append_nil, hrev]
    simp [List.getLast_concat]
  · rw [hcstate, Day021.CorrectQueue.dequeue]
    cases ys with
    | nil => simp [Day021.moveAll_eq]
    | cons w ws => simp [Day021.moveAll_eq]

/-- Witness for C9: enqueueing `1, 2`, the fighting queue dequeues `2` while
the correct queue dequeues `1`. -/
theorem fighting_stacks_lifo_witness :
    ([1, 2] : List Nat) ≠ [] ∧
    (Day021.enqueueAll Day021.FightingStacks.empty [1, 2]).dequeue = .ok (2, ⟨[1], []⟩) ∧
    (Day021.enqueueAllCorrect Day021.CorrectQueue.empty [1, 2]).dequeue =
      .ok (1, ⟨[], [2]⟩) := by
  have h : ([1, 2] : List Nat) ≠ [] := by decide
  have := fighting_stacks_lifo [1, 2] h
  exact ⟨h, by simpa using this.1, by simpa using this.2.2⟩

namespace Day004

/-! ## `days_004__linierly_linked_hashmap.py`

The chain of `Node(key, value)` objects reachable from `HashMap.head` is
embedded as a list of key/value pairs in chain order. -/

/-- `HashMap.put`: walk the chain; on a key match overwrite that node's
value in place; otherwise append a fresh node at the tail. -/
def put {K V : Type} [DecidableEq K] : List (K × V) → K → V → List (K × V)
  | [], k, v => [(k, v)]
  | (k0, v0) :: rest, k, v =>
    if k0 = k then (k0, v) :: rest
    else (k0, v0) :: put rest k v

/-- `HashMap.get`: linear scan from the head; `None` when the key is not on
the chain. -/
def get {K V : Type} [DecidableEq K] : List (K × V) → K → Option V
  | [], _ => none
  | (k0, v0) :: rest, k => if k0 = k then some v0 else get rest k

/-- `HashMap.remove`: unlink the first node carrying the key; returns
whether a node was removed, together with the new chain. -/
def remove {K V : Type} [DecidableEq K] : List (K × V) → K → Bool × List (K × V)
  | [], _ => (false, [])
  | (k0, v0) :: rest, k =>
    if k0 = k then (true, rest)
    else
      let p := remove rest k
      (p.1, (k0, v0) :: p.2)

/-- A sequential program of mutating operations against the map. -/
inductive MapOp (K V : Type) where
  | put (k : K) (v : V)
  | remove (k : K)

/-- Run one operation against the linked-list map. -/
def step {K V : Type} [DecidableEq K] (s : List (K × V)) : MapOp K V → List (K × V)
  | .put k v => put s k v
  | .remove k => (remove s k).2

/-- Run a program from the empty map. -/
def runOps {K V : Type} [DecidableEq K] (ops : List (MapOp K V)) : List (K × V) :=
  ops.foldl step []

/-- Reference semantics: one operation applied to an abstract partial map. -/
def specApply {K V : Type} [DecidableEq K] (f : K → Option V) : MapOp K V → K → Option V
  | .put k v => fun q => if q = k then some v else f q
  | .remove k => fun q => if q = k then none else f q

/-- Reference semantics of a whole program from the empty map: the value of
the most recent `put` on the key not followed by a later `remove` of it. -/
def specGet {K V : Type} [DecidableEq K] (ops : List (MapOp K V)) (k : K) : Option V :=
  (ops.foldl specApply (fun _ => none)) k

theorem get_put {K V : Type} [DecidableEq K] :
    ∀ (s : List (K × V)) (k q : K) (v : V),
      get (put s k v) q = if q = k then some v else get s q := by
  intro s
  induction s with
  | nil =>
    intro k q v
    simp only [put, get]
    by_cases hqk : q = k
    · subst hqk; simp
    · rw [if_neg (fun h => hqk h.symm), if_neg hqk]
  | cons p rest ih =>
    intro k q v
    obtain ⟨k0, v0⟩ := p
    by_cases h0 : k0 = k
    · subst h0
      by_cases hq : k0 = q
      · subst hq
        simp [put, get]
      · have hq' : ¬q = k0 := fun h => hq h.symm
        simp [put, get, hq, hq']
    · have h0' : ¬k = k0 := fun h => h0 h.symm
      by_cases hq : k0 = q
      · subst hq
        simp [put, get, h0, h0']
      · have hq' : ¬q = k0 := fun h => hq h.symm
        simp [put, get, h0, hq, hq', ih]

theorem remove_fst {K V : Type} [DecidableEq K] :
    ∀ (s : List (K × V)) (k : K), (remove s k).1 = (get s k).isSome := by
  intro s
  induction s with
  | nil => intro k; simp [remove, get]
  | cons p rest ih =>
    intro k
    obtain ⟨k0, v0⟩ := p
    by_cases h0 : k0 = k <;> simp [remove, get, h0, ih]

theorem mem_keys_put {K V : Type} [DecidableEq K] :
    ∀ (s : List (K × V)) (k q : K) (v : V),
      q ∈ (put s k v).map Prod.fst ↔ q ∈ s.map Prod.fst ∨ q = k := by
  intro s
  induction s with
  | nil => intro k q v; simp [put]
  | cons p rest ih =>
    intro k q v
    obtain ⟨k0, v0⟩ := p
    by_cases h0 : k0 = k
    · subst h0
      simp [put]
      tauto
    · simp [put, h0, ih]
      tauto

theorem nodup_keys_put {K V : Type} [DecidableEq K] :
    ∀ (s : List (K × V)) (k : K) (v : V),
      (s.map Prod.fst).Nodup → ((put s k v).map Prod.fst).Nodup := by
  intro s
  induction s with
  | nil => intro k v _; simp [put]
  | cons p rest ih =>
    intro k v hnd
    obtain ⟨k0, v0⟩ := p
    rw [List.map_cons, List.nodup_cons] at hnd
    by_cases h0 : k0 = k
    · subst h0
      simp only [put, if_true]
      rw [List.map_cons, List.nodup_cons]
      exact hnd
    · simp only [put, if_neg h0]
      rw [List.map_cons, List.nodup_cons]
      refine ⟨?_, ih k v hnd.2⟩
      intro hmem
      rcases (mem_keys_put rest k k0 v).mp hmem with h | h
      · exact hnd.1 h
      · exact h0 h

theorem keys_remove_sublist {K V : Type} [DecidableEq K] :
    ∀ (s : List (K × V)) (k : K),
      ((remove s k).2.map Prod.fst).Sublist (s.map Prod.fst) := by
  intro s
  induction s with
  | nil => intro k; simp [remove]
  | cons p rest ih =>
    intro k
    obtain ⟨k0, v0⟩ := p
    by_cases h0 : k0 = k
    · simp only [remove, if_pos h0, List.map_cons]
      exact List.sublist_cons_self k0 _
    · simp only [remove, if_neg h0, List.map_cons]
      exact (ih k).cons₂ k0

theorem get_mem_keys {K V : Type} [DecidableEq K] :
    ∀ (s : List (K × V)) (q : K), (get s q).isSome → q ∈ s.map Prod.fst := by
  intro s
  induction s with
  | nil => intro q h; simp [get] at h
  | cons p rest ih =>
    intro q h
    obtain ⟨k0, v0⟩ := p
    simp only [List.map_cons, List.mem_cons]
    by_cases h0 : k0 = q
    · exact Or.inl h0.symm
    · right
      rw [get, if_neg h0] at h
      exact ih q h

theorem get_remove {K V : Type} [DecidableEq K] :
    ∀ (s : List (K × V)) (k q : K), (s.map Prod.fst).Nodup →
      get (remove s k).2 q = if q = k then none else get s q := by
  intro s
  induction s with
  | nil => intro k q _; simp [remove, get]
  | cons p rest ih =>
    intro k q hnd
    obtain ⟨k0, v0⟩ := p
    rw [List.map_cons, List.nodup_cons] at hnd
    by_cases h0 : k0 = k
    · subst h0
      simp only [remove, if_true]
      show get rest q = if q = k0 then none else get ((k0, v0) :: rest) q
      by_cases hqk : q = k0
      · rw [if_pos hqk]
        cases hg : get rest q with
        | none => rfl
        | some v =>
          have hmem := get_mem_keys rest q (by rw [hg]; rfl)
          rw [hqk] at hmem
          exact absurd hmem hnd.1
      · have hqk' : ¬k0 = q := fun h => hqk h.symm
        rw [if_neg hqk]
        simp only [get]
        rw [if_neg hqk']
    · simp only [remove, if_neg h0]
      show get ((k0, v0) :: (remove rest k).2) q = if q = k then none else get ((k0, v0) :: rest) q
      simp only [get]
      rw [ih k q hnd.2]
      by_cases hq : k0 = q
      · have hqk2 : ¬q = k := fun hh => h0 (hq.trans hh)
        rw [if_pos hq, if_neg hqk2, if_pos hq]
      · by_cases hqk2 : q = k
        · rw [if_neg hq, if_pos hqk2, if_pos hqk2]
        · rw [if_neg hq, if_neg hqk2, if_neg hqk2, if_neg hq]

theorem runOps_inv {K V : Type} [DecidableEq K] :
    ∀ (ops : List (MapOp K V)) (s : List (K × V)) (f : K → Option V),
      (∀ q, get s q = f q) → (s.map Prod.fst).Nodup →
      ((ops.foldl step s).map Prod.fst).Nodup ∧
        ∀ q, get (ops.foldl step s) q = (ops.foldl specApply f) q := by
  intro ops
  induction ops with
  | nil => intro s f hf hnd; exact ⟨hnd, fun q => by simpa using hf q⟩
  | cons op rest ih =>
    intro s f hf hnd
    cases op with
    | put k v =>
      refine ih (put s k v) (specApply f (.put k v)) ?_ (nodup_keys_put s k v hnd)
      intro q
      rw [get_put s k q v, hf q]
      rfl
    | remove k =>
      refine ih (remove s k).2 (specApply f (.remove k)) ?_
        ((keys_remove_sublist s k).nodup hnd)
      intro q
      rw [get_remove s k q hnd, hf q]
      rfl

end Day004

/-- C4: under any sequential program of `put`/`remove` operations starting
from an empty `HashMap`, `get k` returns the value of the most recent
`put(k, v)` not followed by a later `remove(k)` (and `None` when `k` is
unbound), `remove k` reports `True` exactly when `k` is currently bound, and
the chain never carries a duplicate key (a `put` on a bound key replaces the
value in place). -/
theorem hashmap_behaves_as_mapping {K V : Type} [DecidableEq K]
    (ops : List (Day004.MapOp K V)) (k : K) :
    Day004.get (Day004.runOps ops) k = Day004.specGet ops k ∧
    (Day004.remove (Day004.runOps ops) k).1 = (Day004.specGet ops k).isSome ∧
    ((Day004.runOps ops).map Prod.fst).Nodup := by
  have h := Day004.runOps_inv ops [] (fun _ => none) (fun q => rfl) (by simp)
  refine ⟨h.2 k, ?_, h.1⟩
  rw [Day004.remove_fst]
  show (Day004.get (List.foldl Day004.step [] ops) k).isSome =
    (Day004.specGet ops k).isSome
  rw [h.2 k]
  rfl

/-- Witness-style instantiation for C4 at a concrete program. -/
theorem hashmap_behaves_as_mapping_witness :
    Day004.get (Day004.runOps [Day004.MapOp.put 1 10, Day004.MapOp.put 2 20,
      Day004.MapOp.put 1 11, Day004.MapOp.remove 2]) 1 =
      Day004.specGet [Day004.MapOp.put 1 10, Day004.MapOp.put 2 20,
        Day004.MapOp.put 1 11, Day004.MapOp.remove 2] (1 : Nat) :=
  (hashmap_behaves_as_mapping (K := Nat) (V := Nat) _ 1).1

namespace Day008

/-- Python indexing `data[i]` (negative indices wrap from the end); `none`
models an `IndexError`. -/
def pyIndex {α : Type} (data : List α) (i : Int) : Option α :=
  if 0 ≤ (if i < 0 then (data.length : Int) + i else i) ∧
      (if i < 0 then (data.length : Int) + i else i) < (data.length : Int) then
    data[(if i < 0 then (data.length : Int) + i else i).toNat]?
  else none

/-- Floor-division bounds for the Python midpoint `(left + right) // 2`. -/
theorem fdiv_two_bounds (l r : Int) (h : l ≤ r) :
    l ≤ (l + r).fdiv 2 ∧ (l + r).fdiv 2 ≤ r := by
  have h1 := Int.fdiv_add_fmod (l + r) 2
  have h2 := Int.fmod_nonneg' (l + r) (by omega : (0 : Int) < 2)
  have h3 := Int.fmod_lt_of_pos (l + r) (by omega : (0 : Int) < 2)
  omega

theorem pyIndex_of_nonneg {α : Type} (data : List α) (i : Int)
    (h0 : 0 ≤ i) (hlen : i < (data.length : Int)) :
    pyIndex data i = data[i.toNat]? := by
  unfold pyIndex
  rw [if_neg (by omega : ¬i < 0)]
  rw [if_pos ⟨h0, hlen⟩]

/-- Step 1 of `paranoid_binary_search`: the plain binary-search `while`
loop (the local `mid = (left + right) // 2` is inlined).  The outer `none`
models an uncaught `IndexError`; `some found` is the loop's final
`found_index` (set on `break`, still `None` when the loop falls through). -/
def bsearchLoop {α : Type} [LinearOrder α] (data : List α) (target : α)
    (left right : Int) : Option (Option Nat) :=
  if hlr : left ≤ right then
    match pyIndex data ((left + right).fdiv 2) with
    | none => none
    | some v =>
      if v = target then some (some ((left + right).fdiv 2).toNat)
      else if v < target then bsearchLoop data target ((left + right).fdiv 2 + 1) right
      else bsearchLoop data target left ((left + right).fdiv 2 - 1)
  else some none
termination_by (right + 1 - left).toNat
decreasing_by
  · have := fdiv_two_bounds left right hlr
    omega
  · have := fdiv_two_bounds left right hlr
    omega

/-- Step 2 of `paranoid_binary_search`: the linear pass that overrides the
result with the first index holding the target (if any). -/
def linearPass {α : Type} [DecidableEq α] : List α → α → Option Nat
  | [], _ => none
  | x :: xs, t => if x = t then some 0 else (linearPass xs t).map (· + 1)

/-- `paranoid_binary_search(data, target)`: binary search, then the linear
pass whose hit (if any) overwrites `found_index`. -/
def paranoid_binary_search {α : Type} [LinearOrder α] (data : List α) (target : α) :
    Option (Option Nat) :=
  match bsearchLoop data target 0 ((data.length : Int) - 1) with
  | none => none
  | some found =>
    some (match linearPass data target with
          | some idx => some idx
          | none => found)

/-- The binary-search loop never actually raises `IndexError` when started
with `0 ≤ left` and `right < len(data)`. -/
theorem bsearchLoop_no_crash {α : Type} [LinearOrder α] (data : List α) (target : α) :
    ∀ (n : Nat) (l r : Int), (r + 1 - l).toNat ≤ n → 0 ≤ l → r < (data.length : Int) →
      bsearchLoop data target l r ≠ none := by
  intro n
  induction n with
  | zero =>
    intro l r hm hl hr
    rw [bsearchLoop, dif_neg (by omega : ¬l ≤ r)]
    simp
  | succ n ih =>
    intro l r hm hl hr
    rw [bsearchLoop]
    by_cases hlr : l ≤ r
    · rw [dif_pos hlr]
      have hmid := fdiv_two_bounds l r hlr
      have htn : ((l + r).fdiv 2).toNat < data.length := by omega
      have hidx : pyIndex data ((l + r).fdiv 2) = some data[((l + r).fdiv 2).toNat] := by
        rw [pyIndex_of_nonneg data _ (by omega) (by omega)]
        exact List.getElem?_eq_getElem htn
      rw [hidx]
      dsimp only
      by_cases he : data[((l + r).fdiv 2).toNat] = target
      · rw [if_pos he]
        simp
      · rw [if_neg he]
        by_cases hlt : data[((l + r).fdiv 2).toNat] < target
        · rw [if_pos hlt]
          exact ih _ _ (by omega) (by omega) hr
        · rw [if_neg hlt]
          exact ih _ _ (by omega) hl (by omega)
    · rw [dif_neg hlr]
      simp

end Day008

namespace Day008

/-- The linear pass finds exactly the first occurrence of the target. -/
theorem linearPass_spec {α : Type} [DecidableEq α] :
    ∀ (data : List α) (t : α), t ∈ data →
      ∃ i, linearPass data t = some i ∧ data.get? i = some t ∧
        ∀ j < i, data.get? j ≠ some t := by
  intro data
  induction data with
  | nil => intro t ht; simp at ht
  | cons x xs ih =>
    intro t ht
    by_cases hx : x = t
    · exact ⟨0, by simp [linearPass, hx], by simp [hx], by omega⟩
    · have hmem : t ∈ xs := by
        rcases List.mem_cons.mp ht with h | h
        · exact absurd h.symm hx
        · exact h
      obtain ⟨i, h1, h2, h3⟩ := ih t hmem
      refine ⟨i + 1, by simp [linearPass, hx, h1], by simpa using h2, ?_⟩
      intro j hj
      cases j with
      | zero => simpa using hx
      | succ j =>
        have := h3 j (by omega)
        simpa using this

end Day008

/-- C3: on a sorted list containing the target, `paranoid_binary_search`
returns (without raising) precisely the first-occurrence index that the
final linear pass computes — the smallest `i` with `data[i] == target` —
because that pass unconditionally overwrites the binary-search result. -/
theorem paranoid_binary_search_first_occurrence {α : Type} [LinearOrder α]
    (data : List α) (target : α)
    (hs : List.Sorted (· ≤ ·) data) (hp : target ∈ data) :
    ∃ i, Day008.paranoid_binary_search data target = some (some i) ∧
      Day008.linearPass data target = some i ∧
      data.get? i = some target ∧ ∀ j < i, data.get? j ≠ some target := by
  obtain ⟨i, h1, h2, h3⟩ := Day008.linearPass_spec data target hp
  have hnc := Day008.bsearchLoop_no_crash data target
    (((data.length : Int) - 1 + 1 - 0).toNat) 0 ((data.length : Int) - 1)
    (le_refl _) (by omega) (by omega)
  refine ⟨i, ?_, h1, h2, h3⟩
  unfold Day008.paranoid_binary_search
  cases hb : Day008.bsearchLoop data target 0 ((data.length : Int) - 1) with
  | none => exact absurd hb hnc
  | some found => rw [h1]

/-- Witness for C3: `data = [1, 3, 5]`, `target = 3`, first occurrence at
index 1. -/
theorem paranoid_binary_search_first_occurrence_witness :
    List.Sorted (· ≤ ·) ([1, 3, 5] : List Int) ∧ (3 : Int) ∈ [1, 3, 5] ∧
    ∃ i, Day008.paranoid_binary_search ([1, 3, 5] : List Int) 3 = some (some i) ∧
      Day008.linearPass ([1, 3, 5] : List Int) 3 = some i ∧
      ([1, 3, 5] : List Int).get? i = some 3 ∧
      ∀ j < i, ([1, 3, 5] : List Int).get? j ≠ some 3 := by
  refine ⟨by decide, by decide, ?_⟩
  exact paranoid_binary_search_first_occurrence [1, 3, 5] 3 (by decide) (by decide)

namespace Day002

/-! ### Value semantics for decimal numeral strings (for C8) -/

/-- Decimal digit characters `'0'..'9'`. -/
def isDigitCh (c : Char) : Bool := 48 ≤ c.toNat && c.toNat ≤ 57

/-- Little-endian value of a digit list (head = least significant digit). -/
def lval : List Char → Nat
  | [] => 0
  | c :: cs => (c.toNat - 48) + 10 * lval cs

/-- The integer part of a numeral string (everything before the first `.`). -/
def intPart (s : List Char) : List Char := s.takeWhile (· ≠ '.')

/-- Fractional length of a numeral string (number of characters after the
first `.`; `0` when there is no `.`). -/
def fracLen (s : List Char) : Nat :=
  if '.' ∈ s then s.length - s.indexOf '.' - 1 else 0

/-- Exact rational value denoted by a numeral string. -/
def val (s : List Char) : ℚ :=
  (lval (s.filter (· ≠ '.')).reverse : ℚ) / (10 : ℚ) ^ fracLen s

/-- The input class named by the claim: nonempty strings of digits with at
most one decimal point and no sign (at least one digit). -/
def ClaimNumeral (s : List Char) : Bool :=
  s.all (fun c => isDigitCh c || c = '.') && s.count '.' ≤ 1 && s.any isDigitCh

/-- Standard numerals (the amended input class): additionally a nonempty
integer part with no leading zero. -/
def GoodNumeral (s : List Char) : Bool :=
  ClaimNumeral s && !(intPart s).isEmpty &&
    (intPart s == ['0'] || !((intPart s).head? == some '0'))

/-- Canonical numerals: good, and when a decimal point is present the string
ends in a nonzero digit of the fractional part (in particular it does not
end in `'.'` or in a trailing fractional zero). -/
def CanonicalNumeral (s : List Char) : Bool :=
  GoodNumeral s &&
    (!(s.contains '.') || (!(s.getLast? == some '0') && !(s.getLast? == some '.')))

theorem toNat_ofNat_small (n : Nat) (h : n < 55296) : (Char.ofNat n).toNat = n := by
  rw [Char.ofNat, dif_pos (Or.inl h)]
  rfl

theorem isDigitCh_toNat {c : Char} (h : isDigitCh c = true) :
    48 ≤ c.toNat ∧ c.toNat ≤ 57 := by
  simp only [isDigitCh, Bool.and_eq_true, decide_eq_true_eq] at h
  exact h

theorem isDigitCh_ne_dot {c : Char} (h : isDigitCh c = true) : ¬(c = '.') := by
  intro he
  subst he
  simp [isDigitCh] at h

theorem isDigitCh_ofNat_digit {d : Nat} (h : d ≤ 9) :
    isDigitCh (Char.ofNat (d + 48)) = true := by
  have ht : (Char.ofNat (d + 48)).toNat = d + 48 := toNat_ofNat_small _ (by omega)
  simp only [isDigitCh, ht, Bool.and_eq_true, decide_eq_true_eq]
  omega

theorem toNat_ofNat_digit {d : Nat} (h : d ≤ 9) :
    (Char.ofNat (d + 48)).toNat = d + 48 :=
  toNat_ofNat_small _ (by omega)

theorem char_eq_zero_of (c : Char) (h0 : c.toNat = 48) : c = '0' := by
  have := Char.ofNat_toNat c
  rw [h0] at this
  exact this.symm.trans rfl

theorem ofNat_digit_ne_zero {d : Nat} (h : d ≤ 9) (hd : d ≠ 0) :
    Char.ofNat (d + 48) ≠ '0' := by
  intro he
  have := toNat_ofNat_digit h
  rw [he] at this
  have : (48 : Nat) = d + 48 := this
  omega

theorem lval_append : ∀ u v : List Char, lval (u ++ v) = lval u + 10 ^ u.length * lval v := by
  intro u
  induction u with
  | nil => intro v; simp [lval]
  | cons c cs ih =>
    intro v
    show (c.toNat - 48) + 10 * lval (cs ++ v) =
      ((c.toNat - 48) + 10 * lval cs) + 10 ^ (cs.length + 1) * lval v
    rw [ih]
    ring

theorem lval_replicate_zero : ∀ m, lval (List.replicate m '0') = 0 := by
  intro m
  induction m with
  | zero => rfl
  | succ m ih => simp [List.replicate, lval, ih]

theorem lval_zero_last : ∀ l : List Char, (∀ c ∈ l, isDigitCh c = true) → lval l = 0 →
    l ≠ [] → l.getLast? = some '0' := by
  intro l
  induction l with
  | nil => intro _ _ h; exact absurd rfl h
  | cons c cs ih =>
    intro hd hv _
    have hc : isDigitCh c = true := hd c (by simp)
    have hb := isDigitCh_toNat hc
    simp only [lval] at hv
    have hc0 : c = '0' := char_eq_zero_of c (by omega)
    cases hcs : cs with
    | nil => subst hc0; simp
    | cons d ds =>
      rw [List.getLast?_cons_cons]
      rw [← hcs]
      refine ih (fun a ha => hd a (by simp [ha])) (by omega) (by simp [hcs])

/-- Value and digit-ness of the carry-add loop on dotless (all-digit)
operands: it computes the little-endian sum with carry. -/
theorem addLoop_val : ∀ (A B : List Char) (c : Nat),
    (∀ x ∈ A, isDigitCh x = true) → (∀ x ∈ B, isDigitCh x = true) → c ≤ 1 →
    lval (addLoop A B c) = lval A + lval B + c ∧
      (∀ x ∈ addLoop A B c, isDigitCh x = true) := by
  intro A
  induction A with
  | nil =>
    intro B
    induction B with
    | nil =>
      intro c _ _ hc
      interval_cases c <;>
        simp [addLoop, lval, toNat_ofNat_digit, isDigitCh_ofNat_digit]
    | cons b br ih =>
      intro c _ hB hc
      have hb : isDigitCh b = true := hB b (by simp)
      have hbb := isDigitCh_toNat hb
      simp only [addLoop]
      rw [if_neg (isDigitCh_ne_dot hb)]
      have hrec := ih ((b.toNat - 48 + c) / 10) (by simp)
        (fun x hx => hB x (by simp [hx])) (by omega)
      constructor
      · simp only [lval, toNat_ofNat_digit (by omega : (b.toNat - 48 + c) % 10 ≤ 9)]
        rw [hrec.1]
        try simp only [lval]
        omega
      · intro x hx
        rcases List.mem_cons.mp hx with h | h
        · subst h
          exact isDigitCh_ofNat_digit (by omega)
        · exact hrec.2 x h
  | cons a ar ih =>
    intro B c hA hB hc
    have ha : isDigitCh a = true := hA a (by simp)
    have haa := isDigitCh_toNat ha
    cases B with
    | nil =>
      simp only [addLoop]
      rw [if_neg (isDigitCh_ne_dot ha)]
      have hrec := ih [] ((a.toNat - 48 + c) / 10)
        (fun x hx => hA x (by simp [hx])) (by simp) (by omega)
      constructor
      · simp only [lval, toNat_ofNat_digit (by omega : (a.toNat - 48 + c) % 10 ≤ 9)]
        rw [hrec.1]
        try simp only [lval]
        omega
      · intro x hx
        rcases List.mem_cons.mp hx with h | h
        · subst h
          exact isDigitCh_ofNat_digit (by omega)
        · exact hrec.2 x h
    | cons b br =>
      have hb : isDigitCh b = true := hB b (by simp)
      have hbb := isDigitCh_toNat hb
      simp only [addLoop]
      rw [if_neg (by
        intro hor
        rcases hor with h | h
        · exact isDigitCh_ne_dot ha h
        · exact isDigitCh_ne_dot hb h)]
      have hrec := ih br ((a.toNat - 48 + (b.toNat - 48) + c) / 10)
        (fun x hx => hA x (by simp [hx])) (fun x hx => hB x (by simp [hx])) (by omega)
      constructor
      · simp only [lval,
          toNat_ofNat_digit (by omega : (a.toNat - 48 + (b.toNat - 48) + c) % 10 ≤ 9)]
        rw [hrec.1]
        try simp only [lval]
        omega
      · intro x hx
        rcases List.mem_cons.mp hx with h | h
        · subst h
          exact isDigitCh_ofNat_digit (by omega)
        · exact hrec.2 x h
/-- The carry-add loop returns `[]` only for empty operands and zero carry. -/
theorem addLoop_eq_nil_iff : ∀ (A B : List Char) (c : Nat),
    addLoop A B c = [] ↔ (A = [] ∧ B = [] ∧ c = 0) := by
  intro A B c
  constructor
  · intro h
    cases A with
    | cons a ar =>
      cases B with
      | nil =>
        rw [addLoop] at h
        by_cases hd : a = '.'
        · rw [if_pos hd] at h; simp at h
        · rw [if_neg hd] at h; simp at h
      | cons b br =>
        rw [addLoop] at h
        by_cases hd : a = '.' ∨ b = '.'
        · rw [if_pos hd] at h; simp at h
        · rw [if_neg hd] at h; simp at h
    | nil =>
      cases B with
      | cons b br =>
        rw [addLoop] at h
        by_cases hd : b = '.'
        · rw [if_pos hd] at h; simp at h
        · rw [if_neg hd] at h; simp at h
      | nil =>
        refine ⟨rfl, rfl, ?_⟩
        by_contra hc
        rw [addLoop, if_pos hc] at h
        simp at h
  · rintro ⟨rfl, rfl, rfl⟩
    rw [addLoop]
    simp

/-- `getLast?` through a cons with a nonempty tail. -/
theorem getLast?_cons_ne_nil {x : Char} {l : List Char} (h : l ≠ []) :
    (x :: l).getLast? = l.getLast? := by
  cases l with
  | nil => exact absurd rfl h
  | cons y ys => rw [List.getLast?_cons_cons]

/-- Top-digit predicate for a little-endian digit list: its most significant
digit (the `getLast?`) is not `'0'`, or the list is the single digit `"0"`,
or it is empty. -/
def TopOk (l : List Char) : Prop := l.getLast? ≠ some '0' ∨ l = ['0']
theorem topok_tail {x : Char} {l : List Char} (h : TopOk (x :: l)) (hne : l ≠ []) :
    l.getLast? ≠ some '0' := by
  rcases h with h | h
  · rwa [getLast?_cons_ne_nil hne] at h
  · exfalso
    have hl : l = [] := by
      have hlen := congrArg List.length h
      simp at hlen
      simpa using hlen
    exact hne hl

theorem char48_eq_zero : Char.ofNat 48 = '0' :=
  char_eq_zero_of _ (toNat_ofNat_small 48 (by omega))

/-- A one-digit-plus-carry tail of the add loop is always `TopOk`. -/
theorem topok_single (t : Nat) (h : t ≤ 19) :
    TopOk (Char.ofNat (t % 10 + 48) :: addLoop [] [] (t / 10)) := by
  by_cases h10 : t ≤ 9
  · have hd : t / 10 = 0 := by omega
    rw [hd]
    have hnil : addLoop [] [] 0 = [] := by rw [addLoop]; simp
    rw [hnil]
    by_cases h0 : t % 10 = 0
    · right
      rw [h0, char48_eq_zero]
    · left
      have : Char.ofNat (t % 10 + 48) ≠ '0' := ofNat_digit_ne_zero (by omega) h0
      simpa using this
  · have hd : t / 10 = 1 := by omega
    rw [hd]
    have hone : addLoop [] [] 1 = [Char.ofNat 49] := by rw [addLoop]; simp
    rw [hone]
    left
    have : Char.ofNat (1 + 48) ≠ '0' := ofNat_digit_ne_zero (by omega) (by omega)
    simpa using this

/-- Helper: a cons onto a nonempty `TopOk` tail of the right value is
`TopOk`, because the tail can only be the lone `"0"` if its value source is
all zeros, contradicting the source's nonzero top digit. -/
theorem topok_key (d : Char) (rec X : List Char) (extra : Nat)
    (hX : ∀ x ∈ X, isDigitCh x = true) (hXne : X ≠ [])
    (hXlast : X.getLast? ≠ some '0') (hrne : rec ≠ []) (hrtop : TopOk rec)
    (hrval : lval rec = lval X + extra) : TopOk (d :: rec) := by
  rcases hrtop with h | h
  · left
    rwa [getLast?_cons_ne_nil hrne]
  · exfalso
    rw [h] at hrval
    have hl0 : lval X = 0 := by
      have hz : lval ['0'] = 0 := by simp [lval]
      omega
    exact hXlast (lval_zero_last X hX hl0 hXne)

/-- `TopOk` preservation when the first operand is exhausted. -/
theorem addLoop_nil_top : ∀ (B : List Char) (c : Nat),
    (∀ x ∈ B, isDigitCh x = true) → c ≤ 1 → TopOk B → TopOk (addLoop [] B c) := by
  intro B
  induction B with
  | nil =>
    intro c _ hc _
    interval_cases c
    · rw [addLoop]
      simp
      left
      simp
    · rw [addLoop]
      simp
      left
      have : Char.ofNat (1 + 48) ≠ '0' := ofNat_digit_ne_zero (by omega) (by omega)
      simpa using this
  | cons b br ih =>
    intro c hB hc hTB
    have hb : isDigitCh b = true := hB b (by simp)
    have hbb := isDigitCh_toNat hb
    simp only [addLoop]
    rw [if_neg (isDigitCh_ne_dot hb)]
    by_cases hbrne : br = []
    · subst hbrne
      exact topok_single (b.toNat - 48 + c) (by omega)
    · have hdig : ∀ x ∈ br, isDigitCh x = true := fun x hx => hB x (by simp [hx])
      have hlast := topok_tail hTB hbrne
      have hrtop := ih ((b.toNat - 48 + c) / 10) hdig (by omega) (Or.inl hlast)
      have hrne : addLoop [] br ((b.toNat - 48 + c) / 10) ≠ [] := by
        rw [Ne, addLoop_eq_nil_iff]
        simp [hbrne]
      have hrval := (addLoop_val [] br ((b.toNat - 48 + c) / 10) (by simp) hdig (by omega)).1
      refine topok_key _ _ br ((b.toNat - 48 + c) / 10) hdig hbrne hlast hrne hrtop ?_
      rw [hrval]
      simp [lval]

/-- `TopOk` is preserved by the add loop on digit operands: the sum of two
numerals without leading zeros has no leading zero (aside from the lone
`"0"`). -/
theorem addLoop_top : ∀ (A B : List Char) (c : Nat),
    (∀ x ∈ A, isDigitCh x = true) → (∀ x ∈ B, isDigitCh x = true) → c ≤ 1 →
    TopOk A → TopOk B → TopOk (addLoop A B c) := by
  intro A
  induction A with
  | nil => intro B c _ hB hc _ hTB; exact addLoop_nil_top B c hB hc hTB
  | cons a ar ih =>
    intro B c hA hB hc hTA hTB
    have ha : isDigitCh a = true := hA a (by simp)
    have haa := isDigitCh_toNat ha
    have hdigar : ∀ x ∈ ar, isDigitCh x = true := fun x hx => hA x (by simp [hx])
    cases B with
    | nil =>
      simp only [addLoop]
      rw [if_neg (isDigitCh_ne_dot ha)]
      by_cases harne : ar = []
      · subst harne
        exact topok_single (a.toNat - 48 + c) (by omega)
      · have hlast := topok_tail hTA harne
        have hrtop := ih [] ((a.toNat - 48 + c) / 10) hdigar (by simp) (by omega)
          (Or.inl hlast) (Or.inl (by simp))
        have hrne : addLoop ar [] ((a.toNat - 48 + c) / 10) ≠ [] := by
          rw [Ne, addLoop_eq_nil_iff]
          simp [harne]
        have hrval := (addLoop_val ar [] ((a.toNat - 48 + c) / 10) hdigar (by simp) (by omega)).1
        refine topok_key _ _ ar ((a.toNat - 48 + c) / 10) hdigar harne hlast hrne hrtop ?_
        rw [hrval]
        simp [lval]
    | cons b br =>
      have hb : isDigitCh b = true := hB b (by simp)
      have hbb := isDigitCh_toNat hb
      have hdigbr : ∀ x ∈ br, isDigitCh x = true := fun x hx => hB x (by simp [hx])
      simp only [addLoop]
      rw [if_neg (by
        intro hor
        rcases hor with h | h
        · exact isDigitCh_ne_dot ha h
        · exact isDigitCh_ne_dot hb h)]
      by_cases harne : ar = []
      · by_cases hbrne : br = []
        · subst harne hbrne
          exact topok_single (a.toNat - 48 + (b.toNat - 48) + c) (by omega)
        · subst harne
          have hlast := topok_tail hTB hbrne
          have hrtop := addLoop_nil_top br ((a.toNat - 48 + (b.toNat - 48) + c) / 10)
            hdigbr (by omega) (Or.inl hlast)
          have hrne : addLoop [] br ((a.toNat - 48 + (b.toNat - 48) + c) / 10) ≠ [] := by
            rw [Ne, addLoop_eq_nil_iff]
            simp [hbrne]
          have hrval := (addLoop_val [] br ((a.toNat - 48 + (b.toNat - 48) + c) / 10)
            (by simp) hdigbr (by omega)).1
          refine topok_key _ _ br ((a.toNat - 48 + (b.toNat - 48) + c) / 10)
            hdigbr hbrne hlast hrne hrtop ?_
          rw [hrval]
          simp [lval]
      · have hlast := topok_tail hTA harne
        have hTBr : TopOk br := by
          by_cases hbrne : br = []
          · subst hbrne
            left
            simp
          · exact Or.inl (topok_tail hTB hbrne)
        have hrtop := ih br ((a.toNat - 48 + (b.toNat - 48) + c) / 10) hdigar hdigbr
          (by omega) (Or.inl hlast) hTBr
        have hrne : addLoop ar br ((a.toNat - 48 + (b.toNat - 48) + c) / 10) ≠ [] := by
          rw [Ne, addLoop_eq_nil_iff]
          simp [harne]
        have hrval := (addLoop_val ar br ((a.toNat - 48 + (b.toNat - 48) + c) / 10)
          hdigar hdigbr (by omega)).1
        exact topok_key _ _ ar (lval br + (a.toNat - 48 + (b.toNat - 48) + c) / 10)
          hdigar harne hlast hrne hrtop (by rw [hrval]; ring)
/-- The fractional-part prefix of the add loop (positions strictly before
the common decimal point of two aligned operands): digit pairs with carry
in, digits out, carry out. -/
def addCarry : List Char → List Char → Nat → List Char × Nat
  | [], _, c => ([], c)
  | _ :: _, [], c => ([], c)
  | a :: ar, b :: br, c =>
    let t := (a.toNat - 48) + (b.toNat - 48) + c
    let p := addCarry ar br (t / 10)
    (Char.ofNat (t % 10 + 48) :: p.1, p.2)

theorem addCarry_spec : ∀ (F1 F2 : List Char) (c : Nat), F1.length = F2.length →
    (∀ x ∈ F1, isDigitCh x = true) → (∀ x ∈ F2, isDigitCh x = true) → c ≤ 1 →
    lval (addCarry F1 F2 c).1 + 10 ^ F1.length * (addCarry F1 F2 c).2 =
        lval F1 + lval F2 + c ∧
      (addCarry F1 F2 c).2 ≤ 1 ∧
      (∀ x ∈ (addCarry F1 F2 c).1, isDigitCh x = true) ∧
      (addCarry F1 F2 c).1.length = F1.length := by
  intro F1
  induction F1 with
  | nil =>
    intro F2 c hlen _ _ hc
    have : F2 = [] := by
      cases F2 with
      | nil => rfl
      | cons x xs => simp at hlen
    subst this
    simp [addCarry, lval]
    exact hc
  | cons a ar ih =>
    intro F2 c hlen hF1 hF2 hc
    cases F2 with
    | nil => simp at hlen
    | cons b br =>
      have ha := isDigitCh_toNat (hF1 a (by simp))
      have hb := isDigitCh_toNat (hF2 b (by simp))
      have hlen' : ar.length = br.length := by simpa using hlen
      have hrec := ih br ((a.toNat - 48 + (b.toNat - 48) + c) / 10) hlen'
        (fun x hx => hF1 x (by simp [hx])) (fun x hx => hF2 x (by simp [hx])) (by omega)
      simp only [addCarry]
      refine ⟨?_, hrec.2.1, ?_, ?_⟩
      · have h1 := hrec.1
        simp only [lval,
          toNat_ofNat_digit (by omega : (a.toNat - 48 + (b.toNat - 48) + c) % 10 ≤ 9),
          List.length_cons, pow_succ]
        generalize hG : (10 : Nat) ^ ar.length *
          (addCarry ar br ((a.toNat - 48 + (b.toNat - 48) + c) / 10)).2 = Y at h1
        have hY : (10 : Nat) ^ ar.length * 10 *
            (addCarry ar br ((a.toNat - 48 + (b.toNat - 48) + c) / 10)).2 = 10 * Y := by
          rw [← hG]
          ring
        rw [hY]
        omega
      · intro x hx
        rcases List.mem_cons.mp hx with h | h
        · subst h
          exact isDigitCh_ofNat_digit (by omega)
        · exact hrec.2.2.1 x h
      · simp [hrec.2.2.2]

/-- Splitting the add loop at the shared decimal point of two aligned
reversed operands. -/
theorem addLoop_split : ∀ (F1 F2 I1 I2 : List Char) (c : Nat),
    F1.length = F2.length →
    (∀ x ∈ F1, isDigitCh x = true) → (∀ x ∈ F2, isDigitCh x = true) →
    addLoop (F1 ++ '.' :: I1) (F2 ++ '.' :: I2) c =
      (addCarry F1 F2 c).1 ++ '.' :: addLoop I1 I2 (addCarry F1 F2 c).2 := by
  intro F1
  induction F1 with
  | nil =>
    intro F2 I1 I2 c hlen _ _
    have : F2 = [] := by
      cases F2 with
      | nil => rfl
      | cons x xs => simp at hlen
    subst this
    simp only [List.nil_append, addCarry]
    rw [addLoop, if_pos (Or.inl rfl)]
  | cons a ar ih =>
    intro F2 I1 I2 c hlen hF1 hF2
    cases F2 with
    | nil => simp at hlen
    | cons b br =>
      have ha := hF1 a (by simp)
      have hb := hF2 b (by simp)
      have hlen' : ar.length = br.length := by simpa using hlen
      simp only [List.cons_append, addLoop, addCarry]
      rw [if_neg (by
        intro hor
        rcases hor with h | h
        · exact isDigitCh_ne_dot ha h
        · exact isDigitCh_ne_dot hb h)]
      rw [ih br I1 I2 _ hlen' (fun x hx => hF1 x (by simp [hx]))
        (fun x hx => hF2 x (by simp [hx]))]
theorem dot_decomp : ∀ s : List Char, '.' ∈ s →
    ∃ I F, s = I ++ '.' :: F ∧ '.' ∉ I := by
  intro s
  induction s with
  | nil => intro h; simp at h
  | cons c cs ih =>
    intro h
    by_cases hc : c = '.'
    · exact ⟨[], cs, by rw [hc]; rfl, by simp⟩
    · have : '.' ∈ cs := by
        rcases List.mem_cons.mp h with h1 | h1
        · exact absurd h1.symm hc
        · exact h1
      obtain ⟨I, F, heq, hI⟩ := ih this
      refine ⟨c :: I, F, by rw [heq]; rfl, ?_⟩
      intro hm
      rcases List.mem_cons.mp hm with he | he
      · exact hc he.symm
      · exact hI he

theorem takeWhile_dot : ∀ (I F : List Char), '.' ∉ I →
    (I ++ '.' :: F).takeWhile (· ≠ '.') = I := by
  intro I F
  induction I with
  | nil => intro _; simp [List.takeWhile_cons]
  | cons c cs ih =>
    intro h
    have hc : ¬c = '.' := fun he => h (by simp [he])
    simp only [List.cons_append, List.takeWhile_cons]
    rw [if_pos (by simpa using hc)]
    rw [ih (fun hm => h (by simp [hm]))]

theorem indexOf_dot : ∀ (I F : List Char), '.' ∉ I →
    (I ++ '.' :: F).indexOf '.' = I.length := by
  intro I F
  induction I with
  | nil => intro _; simp [List.indexOf, List.findIdx_cons]
  | cons c cs ih =>
    intro h
    have hc : ¬c = '.' := fun he => h (by simp [he])
    simp only [List.cons_append, List.indexOf, List.findIdx_cons]
    have : (c == '.') = false := by simpa using hc
    rw [this]
    simp only [cond_false, List.length_cons]
    have := ih (fun hm => h (by simp [hm]))
    simp only [List.indexOf] at this
    omega

theorem filter_ne_dot : ∀ s : List Char, '.' ∉ s → s.filter (· ≠ '.') = s := by
  intro s h
  rw [List.filter_eq_self]
  intro a ha
  have : a ≠ '.' := fun he => h (he ▸ ha)
  simpa using this

theorem fracLen_split (I F : List Char) (hI : '.' ∉ I) :
    fracLen (I ++ '.' :: F) = F.length := by
  unfold fracLen
  rw [if_pos (by simp), indexOf_dot I F hI]
  simp only [List.length_append, List.length_cons]
  omega

theorem val_split (I F : List Char) (hI : '.' ∉ I) (hF : '.' ∉ F) :
    val (I ++ '.' :: F) = (lval I.reverse : ℚ) + (lval F.reverse : ℚ) / (10 : ℚ) ^ F.length := by
  unfold val
  rw [fracLen_split I F hI]
  have hfil : (I ++ '.' :: F).filter (· ≠ '.') = I ++ F := by
    rw [List.filter_append]
    rw [filter_ne_dot I hI]
    show I ++ List.filter _ ('.' :: F) = I ++ F
    rw [List.filter_cons]
    rw [if_neg (by simp)]
    rw [filter_ne_dot F hF]
  rw [hfil]
  rw [List.reverse_append]
  rw [lval_append]
  have h10 : ((10 : ℚ) ^ F.length) ≠ 0 := by positivity
  push_cast
  rw [List.length_reverse]
  field_simp
  ring

theorem val_nodot (s : List Char) (h : '.' ∉ s) : val s = (lval s.reverse : ℚ) := by
  unfold val fracLen
  rw [if_neg h, filter_ne_dot s h]
  simp

theorem val_pad (I F : List Char) (hI : '.' ∉ I) (hF : '.' ∉ F) (k : Nat) :
    val (I ++ '.' :: (F ++ List.replicate k '0')) = val (I ++ '.' :: F) := by
  have hFR : '.' ∉ F ++ List.replicate k '0' := by
    intro hm
    rcases List.mem_append.mp hm with h | h
    · exact hF h
    · have := List.eq_of_mem_replicate h
      simp at this
  rw [val_split I _ hI hFR, val_split I F hI hF]
  congr 1
  rw [List.reverse_append, lval_append]
  have hrep : (List.replicate k '0').reverse = List.replicate k '0' := List.reverse_replicate k '0'
  rw [hrep, lval_replicate_zero]
  simp only [List.length_append, List.length_reverse, List.length_replicate, Nat.zero_add]
  rw [pow_add]
  have h10 : ((10 : ℚ) ^ F.length) ≠ 0 := by positivity
  have h10k : ((10 : ℚ) ^ k) ≠ 0 := by positivity
  push_cast
  field_simp
  ring
theorem takeWhile_nodot : ∀ s : List Char, '.' ∉ s → s.takeWhile (· ≠ '.') = s := by
  intro s
  induction s with
  | nil => intro _; rfl
  | cons c cs ih =>
    intro h
    have hc : ¬c = '.' := fun he => h (by simp [he])
    simp only [List.takeWhile_cons]
    rw [if_pos (by simpa using hc), ih (fun hm => h (by simp [hm]))]

theorem claim_parts (s : List Char) (h : ClaimNumeral s = true) :
    (∀ c ∈ s, isDigitCh c = true ∨ c = '.') ∧ s.count '.' ≤ 1 ∧
      ∃ c ∈ s, isDigitCh c = true := by
  simp only [ClaimNumeral, Bool.and_eq_true, List.all_eq_true, List.any_eq_true,
    decide_eq_true_eq, Bool.or_eq_true] at h
  exact ⟨fun c hc => (h.1.1 c hc).imp id (by simp), h.1.2, h.2⟩

theorem pad_decomp (s : List Char) (h : ClaimNumeral s = true) :
    ∃ I F, (if '.' ∈ s then s else s ++ ['.', '0']) = I ++ '.' :: F ∧
      '.' ∉ I ∧ '.' ∉ F ∧ (∀ c ∈ I, isDigitCh c = true) ∧
      (∀ c ∈ F, isDigitCh c = true) ∧ I = intPart s ∧
      val (if '.' ∈ s then s else s ++ ['.', '0']) = val s := by
  obtain ⟨hchars, hcount, -⟩ := claim_parts s h
  by_cases hdot : '.' ∈ s
  · obtain ⟨I, F, heq, hI⟩ := dot_decomp s hdot
    have hFdot : '.' ∉ F := by
      have hc : s.count '.' = I.count '.' + (F.count '.' + 1) := by
        rw [heq, List.count_append, List.count_cons]
        simp
      have hI0 : I.count '.' = 0 := List.count_eq_zero.mpr hI
      intro hm
      have : 1 ≤ F.count '.' := List.one_le_count_iff.mpr hm
      omega
    have hdigI : ∀ c ∈ I, isDigitCh c = true := by
      intro c hc
      rcases hchars c (by rw [heq]; exact List.mem_append_left _ hc) with hd | hd
      · exact hd
      · exact absurd (hd ▸ hc) hI
    have hdigF : ∀ c ∈ F, isDigitCh c = true := by
      intro c hc
      rcases hchars c (by rw [heq]; exact List.mem_append_right _ (by simp [hc])) with hd | hd
      · exact hd
      · exact absurd (hd ▸ hc) hFdot
    refine ⟨I, F, by rw [if_pos hdot]; exact heq, hI, hFdot, hdigI, hdigF, ?_, ?_⟩
    · unfold intPart
      rw [heq, takeWhile_dot I F hI]
    · rw [if_pos hdot]
  · have hdigs : ∀ c ∈ s, isDigitCh c = true := by
      intro c hc
      rcases hchars c hc with hd | hd
      · exact hd
      · exact absurd (hd ▸ hc) hdot
    refine ⟨s, ['0'], by rw [if_neg hdot], hdot, by simp, hdigs, ?_, ?_, ?_⟩
    · intro c hc
      simp at hc
      subst hc
      decide
    · unfold intPart
      exact (takeWhile_nodot s hdot).symm
    · rw [if_neg hdot]
      have := val_split s ['0'] hdot (by simp)
      rw [show s ++ ['.', '0'] = s ++ '.' :: ['0'] from rfl, this]
      rw [val_nodot s hdot]
      simp [lval]
theorem digits_append_zeros {F : List Char} (hd : ∀ c ∈ F, isDigitCh c = true) (k : Nat) :
    ∀ c ∈ F ++ List.replicate k '0', isDigitCh c = true := by
  intro c hc
  rcases List.mem_append.mp hc with h | h
  · exact hd c h
  · rw [List.eq_of_mem_replicate h]
    decide

theorem nodot_append_zeros {F : List Char} (hF : '.' ∉ F) (k : Nat) :
    '.' ∉ F ++ List.replicate k '0' := by
  intro hm
  rcases List.mem_append.mp hm with h | h
  · exact hF h
  · have := List.eq_of_mem_replicate h
    simp at this

theorem align_structure (a b : List Char) (ha : ClaimNumeral a = true)
    (hb : ClaimNumeral b = true) :
    ∃ Ia Fa Ib Fb,
      (align_decimals a b).1 = Ia ++ '.' :: Fa ∧
      (align_decimals a b).2 = Ib ++ '.' :: Fb ∧
      Fa.length = Fb.length ∧ '.' ∉ Ia ∧ '.' ∉ Fa ∧ '.' ∉ Ib ∧ '.' ∉ Fb ∧
      (∀ c ∈ Ia, isDigitCh c = true) ∧ (∀ c ∈ Fa, isDigitCh c = true) ∧
      (∀ c ∈ Ib, isDigitCh c = true) ∧ (∀ c ∈ Fb, isDigitCh c = true) ∧
      Ia = intPart a ∧ Ib = intPart b ∧
      val (align_decimals a b).1 = val a ∧ val (align_decimals a b).2 = val b := by
  obtain ⟨I1, F1, e1, hI1, hF1, hdI1, hdF1, hint1, hv1⟩ := pad_decomp a ha
  obtain ⟨I2, F2, e2, hI2, hF2, hdI2, hdF2, hint2, hv2⟩ := pad_decomp b hb
  rw [e1] at hv1
  rw [e2] at hv2
  have hda : (I1 ++ '.' :: F1).length - (I1 ++ '.' :: F1).indexOf '.' - 1 = F1.length := by
    rw [indexOf_dot I1 F1 hI1]
    simp only [List.length_append, List.length_cons]
    omega
  have hdb : (I2 ++ '.' :: F2).length - (I2 ++ '.' :: F2).indexOf '.' - 1 = F2.length := by
    rw [indexOf_dot I2 F2 hI2]
    simp only [List.length_append, List.length_cons]
    omega
  have key : align_decimals a b =
      if F1.length > F2.length then
        (I1 ++ '.' :: F1, I2 ++ '.' :: (F2 ++ List.replicate (F1.length - F2.length) '0'))
      else if F2.length > F1.length then
        (I1 ++ '.' :: (F1 ++ List.replicate (F2.length - F1.length) '0'), I2 ++ '.' :: F2)
      else (I1 ++ '.' :: F1, I2 ++ '.' :: F2) := by
    unfold align_decimals
    simp only [e1, e2, hda, hdb, List.append_assoc, List.cons_append, List.nil_append]
  by_cases h12 : F1.length > F2.length
  · rw [key, if_pos h12]
    refine ⟨I1, F1, I2, F2 ++ List.replicate (F1.length - F2.length) '0',
      rfl, rfl, by simp [List.length_replicate]; omega, hI1, hF1, hI2,
      nodot_append_zeros hF2 _, hdI1, hdF1, hdI2, digits_append_zeros hdF2 _,
      hint1, hint2, hv1, ?_⟩
    show val (I2 ++ '.' :: (F2 ++ List.replicate (F1.length - F2.length) '0')) = val b
    rw [val_pad I2 F2 hI2 hF2, hv2]
  · rw [key, if_neg h12]
    by_cases h21 : F2.length > F1.length
    · rw [if_pos h21]
      refine ⟨I1, F1 ++ List.replicate (F2.length - F1.length) '0', I2, F2,
        rfl, rfl, by simp [List.length_replicate]; omega, hI1,
        nodot_append_zeros hF1 _, hI2, hF2, hdI1, digits_append_zeros hdF1 _,
        hdI2, hdF2, hint1, hint2, ?_, hv2⟩
      show val (I1 ++ '.' :: (F1 ++ List.replicate (F2.length - F1.length) '0')) = val a
      rw [val_pad I1 F1 hI1 hF1, hv1]
    · rw [if_neg h21]
      exact ⟨I1, F1, I2, F2, rfl, rfl, by omega, hI1, hF1, hI2, hF2,
        hdI1, hdF1, hdI2, hdF2, hint1, hint2, hv1, hv2⟩
theorem dropWhile_all_append {p : Char → Bool} : ∀ (u v : List Char),
    (∀ x ∈ u, p x = true) → List.dropWhile p (u ++ v) = List.dropWhile p v := by
  intro u v
  induction u with
  | nil => intro _; rfl
  | cons c cs ih =>
    intro h
    simp only [List.cons_append, List.dropWhile_cons]
    rw [if_pos (h c (by simp))]
    exact ih (fun x hx => h x (by simp [hx]))

theorem dropWhile_head_false {p : Char → Bool} : ∀ (l : List Char) (d : Char)
    (t : List Char), List.dropWhile p l = d :: t → p d = false := by
  intro l
  induction l with
  | nil => intro d t h; simp at h
  | cons c cs ih =>
    intro d t h
    rw [List.dropWhile_cons] at h
    by_cases hc : p c = true
    · rw [if_pos hc] at h
      exact ih d t h
    · rw [if_neg hc] at h
      cases h
      simpa using hc

/-- Decomposition of the `rstrip("0")`/`rstrip(".")` steps of
`normalize_decimal` on a split numeral `I ++ "." ++ F`: either the whole
fractional part was zeros and the result is `I`, or the nonzero prefix `F0`
of the fractional part survives. -/
theorem normalize_split (I F : List Char) (hI : '.' ∉ I) (hIne : I ≠ [])
    (hdI : ∀ c ∈ I, isDigitCh c = true) (hdF : ∀ c ∈ F, isDigitCh c = true) :
    (normalize_decimal (I ++ '.' :: F) = I ∧ lval F.reverse = 0) ∨
    (∃ F0 m, F = F0 ++ List.replicate m '0' ∧ F0 ≠ [] ∧
      normalize_decimal (I ++ '.' :: F) = I ++ '.' :: F0 ∧
      F0.getLast? ≠ some '0') := by
  have hrev : (I ++ '.' :: F).reverse = F.reverse ++ '.' :: I.reverse := by
    simp
  have hsplit := List.takeWhile_append_dropWhile (p := fun c => decide (c = '0')) (l := F.reverse)
  have hZ : ∀ x ∈ F.reverse.takeWhile (fun c => decide (c = '0')), x = '0' := by
    intro x hx
    have := List.mem_takeWhile_imp hx
    simpa using this
  have hZrep : F.reverse.takeWhile (fun c => decide (c = '0')) =
      List.replicate (F.reverse.takeWhile (fun c => decide (c = '0'))).length '0' :=
    List.eq_replicate_of_mem hZ
  -- the first rstrip ("0")
  have hstrip0 : rstrip '0' (I ++ '.' :: F) =
      I ++ '.' :: (F.reverse.dropWhile (fun c => decide (c = '0'))).reverse := by
    unfold rstrip
    rw [hrev]
    rw [show F.reverse ++ '.' :: I.reverse =
      F.reverse.takeWhile (fun c => decide (c = '0')) ++
        (F.reverse.dropWhile (fun c => decide (c = '0')) ++ '.' :: I.reverse) by
      rw [← List.append_assoc, hsplit]]
    rw [dropWhile_all_append _ _ (by intro x hx; simpa using hZ x hx)]
    cases hD : F.reverse.dropWhile (fun c => decide (c = '0')) with
    | nil =>
      simp only [List.nil_append, List.dropWhile_cons]
      rw [if_neg (by simp)]
      simp
    | cons d t =>
      have hd := dropWhile_head_false _ _ _ hD
      simp only [List.cons_append, List.dropWhile_cons]
      rw [if_neg (by simpa using hd)]
      simp
  by_cases hD : F.reverse.dropWhile (fun c => decide (c = '0')) = []
  · left
    have ht : F.reverse.takeWhile (fun c => decide (c = '0')) = F.reverse := by
      rw [hD, List.append_nil] at hsplit
      exact hsplit
    have hFz : F.reverse = List.replicate F.reverse.length '0' := by
      rw [ht] at hZrep
      exact hZrep
    constructor
    · unfold normalize_decimal
      rw [if_pos (by simp)]
      rw [hstrip0, hD]
      show rstrip '.' (I ++ '.' :: ([] : List Char).reverse) = I
      simp only [List.reverse_nil]
      unfold rstrip
      have : (I ++ '.' :: ([] : List Char)).reverse = '.' :: I.reverse := by simp
      rw [this]
      rw [List.dropWhile_cons]
      rw [if_pos (by simp)]
      cases hIr : I.reverse with
      | nil =>
        exfalso
        have : I = [] := by simpa using congrArg List.reverse hIr
        exact hIne this
      | cons c cs =>
        have hcmem : c ∈ I := by
          have : c ∈ I.reverse := by simp [hIr]
          simpa using this
        have hcd : isDigitCh c = true := hdI c hcmem
        rw [List.dropWhile_cons]
        rw [if_neg (by simpa using isDigitCh_ne_dot hcd)]
        rw [← hIr]
        simp
    · rw [hFz, lval_replicate_zero]
  · right
    refine ⟨(F.reverse.dropWhile (fun c => decide (c = '0'))).reverse,
      (F.reverse.takeWhile (fun c => decide (c = '0'))).length, ?_, by simpa using hD, ?_, ?_⟩
    · have hgen : ∀ Z D : List Char, Z ++ D = F.reverse → (∀ x ∈ Z, x = '0') →
          F = D.reverse ++ List.replicate Z.length '0' := by
        intro Z D hZD hZ0
        have h := congrArg List.reverse hZD
        rw [List.reverse_append, List.reverse_reverse] at h
        rw [← h]
        congr 1
        rw [List.eq_replicate_of_mem hZ0]
        simp
      exact hgen _ _ hsplit hZ
    · unfold normalize_decimal
      rw [if_pos (by simp)]
      rw [hstrip0]
      cases hDc : F.reverse.dropWhile (fun c => decide (c = '0')) with
      | nil => exact absurd hDc hD
      | cons d t =>
        have hd0 := dropWhile_head_false _ _ _ hDc
        have hdd : isDigitCh d = true := by
          have hdm : d ∈ F := by
            have : d ∈ F.reverse := by
              have := List.dropWhile_sublist (p := fun c => decide (c = '0')) (l := F.reverse)
              exact this.mem (by simp [hDc])
            simpa using this
          exact hdF d hdm
        unfold rstrip
        have hrv : (I ++ '.' :: ((d :: t) : List Char).reverse).reverse =
            d :: (t ++ '.' :: I.reverse) := by
          simp
        rw [hrv]
        rw [List.dropWhile_cons]
        rw [if_neg (by simpa using isDigitCh_ne_dot hdd)]
        simp
    · rw [List.getLast?_reverse]
      cases hDc : F.reverse.dropWhile (fun c => decide (c = '0')) with
      | nil => exact absurd hDc hD
      | cons d t =>
        have hd0 := dropWhile_head_false _ _ _ hDc
        simp only [List.head?_cons]
        intro he
        have : d = '0' := by simpa using he
        rw [this] at hd0
        simp at hd0
theorem normalize_nodot (s : List Char) (h : '.' ∉ s) : normalize_decimal s = s := by
  unfold normalize_decimal
  rw [if_neg h]

theorem good_parts (s : List Char) (h : GoodNumeral s = true) :
    ClaimNumeral s = true ∧ intPart s ≠ [] ∧
      (intPart s = ['0'] ∨ (intPart s).head? ≠ some '0') := by
  simp only [GoodNumeral, Bool.and_eq_true, Bool.or_eq_true, Bool.not_eq_true',
    beq_iff_eq, List.isEmpty_eq_false, beq_eq_false_iff_ne, ne_eq] at h
  tauto

theorem good_intro (s : List Char) (hc : ClaimNumeral s = true) (hne : intPart s ≠ [])
    (hh : intPart s = ['0'] ∨ (intPart s).head? ≠ some '0') : GoodNumeral s = true := by
  simp only [GoodNumeral, Bool.and_eq_true, Bool.or_eq_true, Bool.not_eq_true',
    beq_iff_eq, List.isEmpty_eq_false, beq_eq_false_iff_ne, ne_eq]
  tauto

theorem canonical_intro (s : List Char) (hg : GoodNumeral s = true)
    (hdot : '.' ∈ s → (s.getLast? ≠ some '0' ∧ s.getLast? ≠ some '.')) :
    CanonicalNumeral s = true := by
  simp only [CanonicalNumeral, Bool.and_eq_true, Bool.or_eq_true, Bool.not_eq_true',
    beq_iff_eq, beq_eq_false_iff_ne, ne_eq]
  refine ⟨hg, ?_⟩
  by_cases hd : '.' ∈ s
  · right
    exact hdot hd
  · left
    simpa using hd

theorem good_top (s : List Char) (h : GoodNumeral s = true) :
    TopOk (intPart s).reverse ∧ intPart s ≠ [] := by
  obtain ⟨-, hne, hh⟩ := good_parts s h
  refine ⟨?_, hne⟩
  rcases hh with hh | hh
  · right
    rw [hh]
    rfl
  · left
    rwa [List.getLast?_reverse]
theorem claim_intro (s : List Char) (hchars : ∀ c ∈ s, isDigitCh c = true ∨ c = '.')
    (hcount : s.count '.' ≤ 1) (hany : ∃ c ∈ s, isDigitCh c = true) :
    ClaimNumeral s = true := by
  simp only [ClaimNumeral, Bool.and_eq_true, List.all_eq_true, List.any_eq_true,
    decide_eq_true_eq, Bool.or_eq_true]
  refine ⟨⟨?_, hcount⟩, hany⟩
  intro c hc
  rcases hchars c hc with h | h
  · exact Or.inl h
  · exact Or.inr (by simp [h])

/-- Canonicity and value of a dotless all-digit result list (big-endian),
given `TopOk` of its little-endian form. -/
theorem canonical_of_digits (out : List Char) (hdig : ∀ c ∈ out, isDigitCh c = true)
    (hne : out ≠ []) (htop : TopOk out) :
    CanonicalNumeral out.reverse = true := by
  have hdot : '.' ∉ out.reverse := by
    intro hm
    exact isDigitCh_ne_dot (hdig '.' (by simpa using hm)) rfl
  have hip : intPart out.reverse = out.reverse := takeWhile_nodot _ hdot
  refine canonical_intro _ ?_ ?_
  · refine good_intro _ ?_ ?_ ?_
    · refine claim_intro _ ?_ ?_ ?_
      · intro c hc
        exact Or.inl (hdig c (by simpa using hc))
      · rw [List.count_eq_zero.mpr hdot]
        omega
      · obtain ⟨c, hc⟩ := List.exists_mem_of_ne_nil out hne
        exact ⟨c, by simpa using hc, hdig c hc⟩
    · rw [hip]
      simpa using hne
    · rw [hip]
      rcases htop with h | h
      · right
        rwa [List.head?_reverse]
      · left
        rw [h]
        rfl
  · intro hm
    exact absurd hm hdot

/-- The dotless case of C8: both operands are plain digit numerals. -/
theorem add_strings_nodot (x y : List Char) (hx : GoodNumeral x = true)
    (hy : GoodNumeral y = true) (hdx : '.' ∉ x) (hdy : '.' ∉ y) :
    val (add_strings x y) = val x + val y ∧
      CanonicalNumeral (add_strings x y) = true := by
  obtain ⟨hcx, hipx, -⟩ := good_parts x hx
  obtain ⟨hcy, hipy, -⟩ := good_parts y hy
  have hix : intPart x = x := takeWhile_nodot x hdx
  have hiy : intPart y = y := takeWhile_nodot y hdy
  have hxne : x ≠ [] := by rwa [hix] at hipx
  have hyne : y ≠ [] := by rwa [hiy] at hipy
  have hdigx : ∀ c ∈ x, isDigitCh c = true := by
    intro c hc
    rcases (claim_parts x hcx).1 c hc with h | h
    · exact h
    · exact absurd (h ▸ hc) hdx
  have hdigy : ∀ c ∈ y, isDigitCh c = true := by
    intro c hc
    rcases (claim_parts y hcy).1 c hc with h | h
    · exact h
    · exact absurd (h ▸ hc) hdy
  have hdigxr : ∀ c ∈ x.reverse, isDigitCh c = true := fun c hc => hdigx c (by simpa using hc)
  have hdigyr : ∀ c ∈ y.reverse, isDigitCh c = true := fun c hc => hdigy c (by simpa using hc)
  have hout := addLoop_val x.reverse y.reverse 0 hdigxr hdigyr (by omega)
  have htopx : TopOk x.reverse := by
    have := (good_top x hx).1
    rwa [hix] at this
  have htopy : TopOk y.reverse := by
    have := (good_top y hy).1
    rwa [hiy] at this
  have htop := addLoop_top x.reverse y.reverse 0 hdigxr hdigyr (by omega) htopx htopy
  have hne : addLoop x.reverse y.reverse 0 ≠ [] := by
    rw [Ne, addLoop_eq_nil_iff]
    simp [hxne]
  have hdout : '.' ∉ (addLoop x.reverse y.reverse 0).reverse := by
    intro hm
    exact isDigitCh_ne_dot (hout.2 '.' (by simpa using hm)) rfl
  have hadd : add_strings x y = (addLoop x.reverse y.reverse 0).reverse := by
    unfold add_strings
    rw [if_neg (by tauto)]
    exact normalize_nodot _ hdout
  rw [hadd]
  constructor
  · rw [val_nodot _ hdout, val_nodot _ hdx, val_nodot _ hdy, List.reverse_reverse]
    rw [hout.1]
    push_cast
    ring
  · exact canonical_of_digits _ hout.2 hne htop
/-- The decimal-point case of C8. -/
theorem add_strings_dot (x y : List Char) (hx : GoodNumeral x = true)
    (hy : GoodNumeral y = true) (hdot : '.' ∈ x ∨ '.' ∈ y) :
    val (add_strings x y) = val x + val y ∧
      CanonicalNumeral (add_strings x y) = true := by
  obtain ⟨hcx, -, -⟩ := good_parts x hx
  obtain ⟨hcy, -, -⟩ := good_parts y hy
  obtain ⟨Ia, Fa, Ib, Fb, e1, e2, hlen, hIa, hFa, hIb, hFb, hdIa, hdFa, hdIb, hdFb,
    hint1, hint2, hv1, hv2⟩ := align_structure x y hcx hcy
  have hdFar : ∀ c ∈ Fa.reverse, isDigitCh c = true := fun c hc => hdFa c (by simpa using hc)
  have hdFbr : ∀ c ∈ Fb.reverse, isDigitCh c = true := fun c hc => hdFb c (by simpa using hc)
  have hdIar : ∀ c ∈ Ia.reverse, isDigitCh c = true := fun c hc => hdIa c (by simpa using hc)
  have hdIbr : ∀ c ∈ Ib.reverse, isDigitCh c = true := fun c hc => hdIb c (by simpa using hc)
  have hlenr : Fa.reverse.length = Fb.reverse.length := by simpa using hlen
  have hcar := addCarry_spec Fa.reverse Fb.reverse 0 hlenr hdFar hdFbr (by omega)
  have hH := addLoop_val Ia.reverse Ib.reverse (addCarry Fa.reverse Fb.reverse 0).2
    hdIar hdIbr hcar.2.1
  have hIane : Ia ≠ [] := by
    have := (good_top x hx).2
    rwa [← hint1] at this
  have hIbne : Ib ≠ [] := by
    have := (good_top y hy).2
    rwa [← hint2] at this
  have htopa : TopOk Ia.reverse := by
    have := (good_top x hx).1
    rwa [← hint1] at this
  have htopb : TopOk Ib.reverse := by
    have := (good_top y hy).1
    rwa [← hint2] at this
  have hHtop := addLoop_top Ia.reverse Ib.reverse (addCarry Fa.reverse Fb.reverse 0).2
    hdIar hdIbr hcar.2.1 htopa htopb
  have hHne : addLoop Ia.reverse Ib.reverse (addCarry Fa.reverse Fb.reverse 0).2 ≠ [] := by
    rw [Ne, addLoop_eq_nil_iff]
    simp [hIane]
  have hsplit := addLoop_split Fa.reverse Fb.reverse Ia.reverse Ib.reverse 0 hlenr hdFar hdFbr
  have hraw : (addLoop (align_decimals x y).1.reverse (align_decimals x y).2.reverse 0).reverse =
      (addLoop Ia.reverse Ib.reverse (addCarry Fa.reverse Fb.reverse 0).2).reverse ++
        '.' :: (addCarry Fa.reverse Fb.reverse 0).1.reverse := by
    rw [e1, e2]
    rw [show (Ia ++ '.' :: Fa).reverse = Fa.reverse ++ '.' :: Ia.reverse by simp]
    rw [show (Ib ++ '.' :: Fb).reverse = Fb.reverse ++ '.' :: Ib.reverse by simp]
    rw [hsplit]
    simp
  have hadd : add_strings x y = normalize_decimal
      ((addLoop Ia.reverse Ib.reverse (addCarry Fa.reverse Fb.reverse 0).2).reverse ++
        '.' :: (addCarry Fa.reverse Fb.reverse 0).1.reverse) := by
    unfold add_strings
    rw [if_pos hdot]
    show normalize_decimal
      ((addLoop (align_decimals x y).1.reverse (align_decimals x y).2.reverse 0).reverse) = _
    rw [hraw]
  have hdH : '.' ∉ (addLoop Ia.reverse Ib.reverse (addCarry Fa.reverse Fb.reverse 0).2).reverse := by
    intro hm
    exact isDigitCh_ne_dot (hH.2 '.' (by simpa using hm)) rfl
  have hHrne : (addLoop Ia.reverse Ib.reverse (addCarry Fa.reverse Fb.reverse 0).2).reverse ≠ [] := by
    simpa using hHne
  have hdHr : ∀ c ∈ (addLoop Ia.reverse Ib.reverse
      (addCarry Fa.reverse Fb.reverse 0).2).reverse, isDigitCh c = true :=
    fun c hc => hH.2 c (by simpa using hc)
  have hdLr : ∀ c ∈ (addCarry Fa.reverse Fb.reverse 0).1.reverse, isDigitCh c = true :=
    fun c hc => hcar.2.2.1 c (by simpa using hc)
  have hnorm := normalize_split
    (addLoop Ia.reverse Ib.reverse (addCarry Fa.reverse Fb.reverse 0).2).reverse
    (addCarry Fa.reverse Fb.reverse 0).1.reverse hdH hHrne hdHr hdLr
  -- rational value bookkeeping
  have h10 : ((10 : ℚ) ^ Fa.length) ≠ 0 := by positivity
  have hqx : val x = (lval Ia.reverse : ℚ) + (lval Fa.reverse : ℚ) / (10 : ℚ) ^ Fa.length := by
    rw [← hv1, e1, val_split Ia Fa hIa hFa]
  have hqy : val y = (lval Ib.reverse : ℚ) + (lval Fb.reverse : ℚ) / (10 : ℚ) ^ Fa.length := by
    rw [← hv2, e2, val_split Ib Fb hIb hFb, hlen]
  have hcarq : (lval (addCarry Fa.reverse Fb.reverse 0).1 : ℚ) +
      (10 : ℚ) ^ Fa.length * ((addCarry Fa.reverse Fb.reverse 0).2 : ℚ) =
      (lval Fa.reverse : ℚ) + (lval Fb.reverse : ℚ) := by
    have h := hcar.1
    rw [List.length_reverse] at h
    exact_mod_cast by
      push_cast
      exact_mod_cast congrArg (fun n : Nat => (n : ℚ)) h
  have hHq : (lval (addLoop Ia.reverse Ib.reverse (addCarry Fa.reverse Fb.reverse 0).2) : ℚ) =
      (lval Ia.reverse : ℚ) + (lval Ib.reverse : ℚ) +
        ((addCarry Fa.reverse Fb.reverse 0).2 : ℚ) := by
    exact_mod_cast congrArg (fun n : Nat => (n : ℚ)) hH.1
  rcases hnorm with ⟨hres, hLz⟩ | ⟨F0, m, hLdec, hF0ne, hres, hF0last⟩
  · rw [List.reverse_reverse] at hLz
    have hLzq : (lval (addCarry Fa.reverse Fb.reverse 0).1 : ℚ) = 0 := by exact_mod_cast hLz
    constructor
    · rw [hadd, hres, val_nodot _ hdH, List.reverse_reverse, hqx, hqy, hHq]
      field_simp
      linarith [hcarq, hLzq]
    · rw [hadd, hres]
      exact canonical_of_digits _ hH.2 hHne hHtop
  · -- the fractional part survives as F0
    have hdF0 : ∀ c ∈ F0, isDigitCh c = true := by
      intro c hc
      exact hdLr c (by rw [hLdec]; exact List.mem_append_left _ hc)
    have hdF0dot : '.' ∉ F0 := fun hm => isDigitCh_ne_dot (hdF0 '.' hm) rfl
    have hLrev : (addCarry Fa.reverse Fb.reverse 0).1 =
        List.replicate m '0' ++ F0.reverse := by
      have h := congrArg List.reverse hLdec
      rw [List.reverse_reverse, List.reverse_append, List.reverse_replicate] at h
      exact h
    have hLval : (lval (addCarry Fa.reverse Fb.reverse 0).1 : ℚ) =
        (10 : ℚ) ^ m * (lval F0.reverse : ℚ) := by
      rw [hLrev, lval_append, lval_replicate_zero, List.length_replicate]
      push_cast
      ring
    have hflen : Fa.length = m + F0.length := by
      have h1 : (addCarry Fa.reverse Fb.reverse 0).1.length = Fa.length := by
        have := hcar.2.2.2
        rwa [List.length_reverse] at this
      have h2 := congrArg List.length hLrev
      rw [List.length_append, List.length_replicate, List.length_reverse] at h2
      omega
    constructor
    · rw [hadd, hres, val_split _ F0 hdH hdF0dot, List.reverse_reverse, hqx, hqy, hHq]
      rw [hflen, pow_add] at hcarq ⊢
      rw [hflen, pow_add] at h10
      have h10m : ((10 : ℚ) ^ m) ≠ 0 := by positivity
      have h10f : ((10 : ℚ) ^ F0.length) ≠ 0 := by positivity
      rw [hLval] at hcarq
      field_simp
      linear_combination (10 : ℚ) ^ F0.length * hcarq
    · rw [hadd, hres]
      refine canonical_intro _ ?_ ?_
      · refine good_intro _ ?_ ?_ ?_
        · refine claim_intro _ ?_ ?_ ?_
          · intro c hc
            rcases List.mem_append.mp hc with h | h
            · exact Or.inl (hdHr c h)
            · rcases List.mem_cons.mp h with h | h
              · exact Or.inr h
              · exact Or.inl (hdF0 c h)
          · rw [List.count_append, List.count_cons]
            rw [List.count_eq_zero.mpr hdH, List.count_eq_zero.mpr hdF0dot]
            simp
          · obtain ⟨c, hc⟩ := List.exists_mem_of_ne_nil _ hHrne
            exact ⟨c, List.mem_append_left _ hc, hdHr c hc⟩
        · rw [intPart, takeWhile_dot _ F0 hdH]
          exact hHrne
        · rw [intPart, takeWhile_dot _ F0 hdH]
          rcases hHtop with h | h
          · right
            rwa [List.head?_reverse]
          · left
            rw [h]
            rfl
      · intro hm
        have hgl : ((addLoop Ia.reverse Ib.reverse
            (addCarry Fa.reverse Fb.reverse 0).2).reverse ++ '.' :: F0).getLast? =
            F0.getLast? := by
          rw [List.getLast?_append]
          rw [getLast?_cons_ne_nil hF0ne]
          cases hg : F0.getLast? with
          | none => simp [List.getLast?_eq_none_iff] at hg; exact absurd hg hF0ne
          | some d => simp
        rw [hgl]
        refine ⟨hF0last, ?_⟩
        intro he
        have : '.' ∈ F0 := List.mem_of_mem_getLast? (by rw [he]; rfl)
        exact hdF0dot this

end Day002

/-- C8 (amended): `string_calculator("12.5", "3.4", "+")` returns `"15.9"`;
and for standard decimal numeral operands (digits with at most one decimal
point, no sign, nonempty integer part with no leading zero), `add_strings`
returns a numeral denoting the exact rational sum of its operands, in
canonical form: no leading zero, and trailing fractional zeros and a
trailing decimal point stripped by `normalize_decimal`. -/
theorem add_strings_exact :
    Day002.string_calculator 0 ['1', '2', '.', '5'] ['3', '.', '4'] ['+'] =
      Day002.DivResult.ok ['1', '5', '.', '9'] ∧
    ∀ x y : List Char, Day002.GoodNumeral x = true → Day002.GoodNumeral y = true →
      Day002.val (Day002.add_strings x y) = Day002.val x + Day002.val y ∧
      Day002.CanonicalNumeral (Day002.add_strings x y) = true := by
  constructor
  · simp [Day002.string_calculator, Day002.add_strings, Day002.align_decimals,
      Day002.addLoop, Day002.normalize_decimal, Day002.rstrip]
  · intro x y hx hy
    by_cases hdot : '.' ∈ x ∨ '.' ∈ y
    · exact Day002.add_strings_dot x y hx hy hdot
    · push_neg at hdot
      exact Day002.add_strings_nodot x y hx hy hdot.1 hdot.2

/-- Counterexample for C8 as stated: `"00"` and `"0"` are digit strings with
at most one decimal point and no sign, yet `add_strings "00" "0"` returns
`"00"`, which is not the canonical decimal numeral (`"0"`) of the sum `0`. -/
theorem add_strings_counterexample :
    Day002.ClaimNumeral ['0', '0'] = true ∧ Day002.ClaimNumeral ['0'] = true ∧
    Day002.add_strings ['0', '0'] ['0'] = ['0', '0'] ∧
    Day002.CanonicalNumeral (Day002.add_strings ['0', '0'] ['0']) = false := by
  have h : Day002.add_strings ['0', '0'] ['0'] = ['0', '0'] := by
    simp [Day002.add_strings, Day002.addLoop, Day002.normalize_decimal]
  refine ⟨by decide, by decide, h, ?_⟩
  rw [h]; decide

/-- Witness for C8 at the spec's own example operands. -/
theorem add_strings_exact_witness :
    Day002.GoodNumeral ['1', '2', '.', '5'] = true ∧
    Day002.GoodNumeral ['3', '.', '4'] = true ∧
    (Day002.val (Day002.add_strings ['1', '2', '.', '5'] ['3', '.', '4']) =
        Day002.val ['1', '2', '.', '5'] + Day002.val ['3', '.', '4'] ∧
      Day002.CanonicalNumeral (Day002.add_strings ['1', '2', '.', '5'] ['3', '.', '4']) = true) :=
  ⟨by decide, by decide, add_strings_exact.2 _ _ (by decide) (by decide)⟩

namespace Day011

/-! ## `days_011__singleton_aint_single.py`

The working directory holds at most the one file `singleton.txt`; it is
modelled as `Option` of its parsed `key=value` dictionary (`none`: the file
does not exist).  `_read_file` parses back exactly what `_write_file`
writes for the `=`-free keys and newline-free values this demo uses, so the
file contents are carried in parsed form. -/

/-- The parsed contents of `singleton.txt`. -/
abbrev FileDict := List (List Char × List Char)

/-- Python `data[key] = value` on the parsed dictionary: replace in place
or append. -/
def dictPut : FileDict → List Char → List Char → FileDict
  | [], k, v => [(k, v)]
  | (k', v') :: r, k, v =>
    if k' = k then (k', v) :: r else (k', v') :: dictPut r k v

/-- `FileSingleton()`: `__init__` writes `{}` when the file does not exist. -/
def init (fs : Option FileDict) : Option FileDict :=
  if fs.isSome then fs else some []

/-- `set(key, value)`: read the whole file, bind one key, write it back
(the stored value is already `str(value)`). -/
def set (fs : Option FileDict) (key value : List Char) : Option FileDict :=
  some (dictPut (fs.getD []) key value)

/-- `clear()`: write `{}`. -/
def clear (_fs : Option FileDict) : Option FileDict := some []

/-- The file-system effect of the `__main__` block: the three constructor
calls, the 100-`set` benchmark, the type-loss demo (`get`s read only), and
the final `clear()` followed by `os.remove` when the file exists. -/
def mainTrace : Option FileDict :=
  let fs : Option FileDict := none
  let fs := init fs
  let fs := init fs
  let fs := init fs
  let fs := clear fs
  let fs := (List.range 100).foldl
    (fun fs i => set fs (("key_".toList) ++ Nat.toDigits 10 i) (Nat.toDigits 10 i)) fs
  let fs := clear fs
  let fs := set fs ("number".toList) ("42".toList)
  let fs := set fs ("float".toList) ("3.14".toList)
  let fs := set fs ("bool".toList) ("True".toList)
  let fs := clear fs
  if fs.isSome then none else fs

end Day011

namespace Day012

/-! ## `days_012__in_a_pickle_data.py`

The working directory holds at most the one file `database.pkl`, modelled
as `Option` of the pickled dictionary (`none`: the file does not exist);
the demo stores only string keys and string values, which `pickle`
round-trips. -/

/-- The unpickled contents of `database.pkl`. -/
abbrev PickleDict := List (List Char × List Char)

/-- Python `data[key] = value`. -/
def dictPut : PickleDict → List Char → List Char → PickleDict
  | [], k, v => [(k, v)]
  | (k', v') :: r, k, v =>
    if k' = k then (k', v) :: r else (k', v') :: dictPut r k v

/-- `PickleDatabase()`: `__init__` writes `{}` when the file does not
exist. -/
def init (fs : Option PickleDict) : Option PickleDict :=
  if fs.isSome then fs else some []

/-- `insert(key, value)`: load everything, bind one key, save everything. -/
def insert (fs : Option PickleDict) (key value : List Char) : Option PickleDict :=
  some (dictPut (fs.getD []) key value)

/-- `clear()`: pickle an empty dict. -/
def clear (_fs : Option PickleDict) : Option PickleDict := some []

/-- The file-system effect of the `__main__` block: the constructor, the
three sized benchmark rounds, the 1000-record memory demo (`get`s read
only), and the final `clear()` followed by `os.remove` when the file
exists. -/
def mainTrace : Option PickleDict :=
  let fs : Option PickleDict := none
  let fs := init fs
  let fs := clear fs
  let fs := [100, 500, 1000].foldl (fun fs size =>
    let fs := clear fs
    let fs := (List.range size).foldl
      (fun fs idx => insert fs (("key_".toList) ++ Nat.toDigits 10 idx)
        (("value_".toList) ++ Nat.toDigits 10 idx)) fs
    insert fs ("new_key".toList) ("new_value".toList)) fs
  let fs := clear fs
  let fs := (List.range 1000).foldl
    (fun fs idx => insert fs (("key_".toList) ++ Nat.toDigits 10 idx)
      (List.replicate 100 'x')) fs
  let fs := clear fs
  if fs.isSome then none else fs

end Day012

namespace Day023

/-! ## `days_023__linked_disks.py`

The `linked_list_nodes/` directory is modelled as an association list from
node file names to the parsed contents `(value, next)` that `_write_node`
stores and `_read_node` parses back (`next=NONE` is `none`).  Reading a
missing file (`FileNotFoundError`) and exhausting the fuel of an unbounded
`while` traversal are both modelled as a `none` result, which aborts the
run. -/

/-- The contents of the node directory. -/
abbrev NodeDir := List (List Char × Int × Option (List Char))

/-- Python `str` of an `int`, as interpolated by `f"node_{value}.txt"`. -/
def pyIntStr (v : Int) : List Char :=
  if v < 0 then '-' :: Nat.toDigits 10 v.natAbs else Nat.toDigits 10 v.natAbs

/-- `f"node_{value}.txt"`. -/
def nodeFile (v : Int) : List Char :=
  ("node_".toList) ++ pyIntStr v ++ (".txt".toList)

/-- `_write_node(filename, value, next_node)`: create or overwrite one
node file. -/
def writeNode : NodeDir → List Char → Int → Option (List Char) → NodeDir
  | [], f, v, nxt => [(f, v, nxt)]
  | (f', e) :: r, f, v, nxt =>
    if f' = f then (f', v, nxt) :: r else (f', e) :: writeNode r f v nxt

/-- `_read_node(filename)`; `none` when the file does not exist. -/
def readNode : NodeDir → List Char → Option (Int × Option (List Char))
  | [], _ => none
  | (f', v, nxt) :: r, f => if f' = f then some (v, nxt) else readNode r f

/-- `os.remove(self._node_path(current))`. -/
def removeFile : NodeDir → List Char → NodeDir
  | [], _ => []
  | (f', e) :: r, f => if f' = f then r else (f', e) :: removeFile r f

/-- A `FileNodeLinkedList` object together with its directory: `head` is
the file name of the head node. -/
structure FileNodeLinkedList where
  dir : NodeDir
  head : Option (List Char)

/-- The `while True` tail-finding loop of `append`. -/
def findTail (dir : NodeDir) : Nat → List Char → Option (List Char)
  | 0, _ => none
  | fuel + 1, current =>
    match readNode dir current with
    | none => none
    | some (_, none) => some current
    | some (_, some nxt) => findTail dir fuel nxt

/-- `append(value)`. -/
def append (fuel : Nat) (s : FileNodeLinkedList) (value : Int) :
    Option FileNodeLinkedList :=
  let filename := nodeFile value
  match s.head with
  | none => some { dir := writeNode s.dir filename value none, head := some filename }
  | some h =>
    match findTail s.dir fuel h with
    | none => none
    | some current =>
      let dir1 := writeNode s.dir filename value none
      match readNode dir1 current with
      | none => none
      | some (val, _) =>
        some { dir := writeNode dir1 current val (some filename), head := s.head }

/-- The `while current is not None` loop of `traverse`. -/
def traverseLoop (dir : NodeDir) : Nat → Option (List Char) → List Int → Option (List Int)
  | fuel, current, values =>
    match current with
    | none => some values.reverse
    | some cur =>
      match fuel with
      | 0 => none
      | fuel + 1 =>
        match readNode dir cur with
        | none => none
        | some (val, nxt) => traverseLoop dir fuel nxt (val :: values)

/-- `traverse()`. -/
def traverse (fuel : Nat) (s : FileNodeLinkedList) : Option (List Int) :=
  traverseLoop s.dir fuel s.head []

/-- Outcome of `delete`: `raised` is the final `raise ValueError`. -/
inductive DeleteResult where
  | raised
  | done (s : FileNodeLinkedList)

/-- The `while current is not None` loop of `delete`. -/
def deleteLoop (s : FileNodeLinkedList) (value : Int) :
    Nat → Option (List Char) → Option (List Char) → Option DeleteResult
  | fuel, prev, current =>
    match current with
    | none => some .raised
    | some cur =>
      match fuel with
      | 0 => none
      | fuel + 1 =>
        match readNode s.dir cur with
        | none => none
        | some (val, nxt) =>
          if val = value then
            match prev with
            | none => some (.done { dir := removeFile s.dir cur, head := nxt })
            | some p =>
              match readNode s.dir p with
              | none => none
              | some (pval, _) =>
                some (.done { dir := removeFile (writeNode s.dir p pval nxt) cur,
                              head := s.head })
          else deleteLoop s value fuel (some cur) nxt

/-- `delete(value)`. -/
def delete (fuel : Nat) (s : FileNodeLinkedList) (value : Int) : Option DeleteResult :=
  deleteLoop s value fuel none s.head

/-- The file-system effect of `main()`: a fresh empty node directory
(`os.makedirs`), `append(1)`, `append(2)`, `append(3)`, a `traverse`,
`delete(2)`, and a second `traverse`; no clean-up follows.  `none` marks a
crashed or fuel-starved run. -/
def main (fuel : Nat) : Option FileNodeLinkedList :=
  let s0 : FileNodeLinkedList := { dir := [], head := none }
  match append fuel s0 1 with
  | none => none
  | some s1 =>
    match append fuel s1 2 with
    | none => none
    | some s2 =>
      match append fuel s2 3 with
      | none => none
      | some s3 =>
        match traverse fuel s3 with
        | none => none
        | some _ =>
          match delete fuel s3 2 with
          | some (.done s4) =>
            match traverse fuel s4 with
            | none => none
            | some _ => some s4
          | _ => none

end Day023

/-- Counterexample for C2 as stated: running the linked-list demo's `main`
(with ample fuel for its bounded traversals) ends with the node directory
still holding `node_1.txt` and `node_3.txt` — the files it created are not
cleaned up before exit. -/
theorem day023_leftover_files :
    (Day023.main 10).map (fun s => s.dir.map (fun e => e.1)) =
      some [("node_1.txt".toList), ("node_3.txt".toList)] ∧
    (Day023.main 10).map (fun s => s.dir.isEmpty) = some false := by
  decide

/-- C2 (amended): the singleton demo and the pickle demo do delete their
files before exiting (`singleton.txt` and `database.pkl` are removed at the
end of each `__main__`), but the file-per-node linked-list demo performs no
clean-up: for every fuel budget that lets its bounded traversals finish,
`main()` exits with `node_1.txt` and `node_3.txt` still present in
`linked_list_nodes/`. -/
theorem demo_file_cleanup :
    Day011.mainTrace = none ∧ Day012.mainTrace = none ∧
    ∀ fuel : Nat,
      (Day023.main (fuel + 4)).map (fun s => s.dir.map (fun e => e.1)) =
        some [("node_1.txt".toList), ("node_3.txt".toList)] := by
  refine ⟨rfl, rfl, fun fuel => ?_⟩
  have h : Day023.main (fuel + 4) =
      some ⟨[(("node_1.txt".toList), 1, some ("node_3.txt".toList)),
             (("node_3.txt".toList), 3, none)], some ("node_1.txt".toList)⟩ := rfl
  rw [h]
  rfl

namespace Day013

/-! ## `days_013__permanent_rest_API.py`

`request.get_json()` yields `none` (no parseable JSON body / Python `None`)
or a parsed JSON value; keys of parsed JSON objects are strings.  The
module-level `items` dict is passed and returned explicitly.  Python dict
slots only ever hold hashable keys — `items[k] = v`, `k in items` and
`del items[k]` raise `TypeError` before a list or dict key could enter the
store — so store keys live in the dedicated type `HKey`, compared with
Python `==` (which identifies `True` with `1` and `False` with `0`, since
`bool` is an `int` subclass, and identifies JSON `null` with Python
`None`).  An uncaught exception — `AttributeError` from `.get` on a
non-dict body, or `TypeError` from an unhashable key — is
`Except.error ()`. -/

/-- Parsed JSON values. -/
inductive JVal where
  | null
  | bool (b : Bool)
  | num (q : ℚ)
  | str (s : List Char)
  | arr (l : List JVal)
  | obj (l : List (List Char × JVal))

/-- Python truthiness of a parsed JSON value (`if not body`). -/
def truthy : JVal → Bool
  | .null => false
  | .bool b => b
  | .num q => !(q == 0)
  | .str s => !s.isEmpty
  | .arr l => !l.isEmpty
  | .obj l => !l.isEmpty

/-- Python truthiness of a possibly-`None` value. -/
def truthyOpt : Option JVal → Bool
  | none => false
  | some v => truthy v

/-- `body.get(key)` on a parsed JSON object; `none` is Python `None`. -/
def bget (l : List (List Char × JVal)) (k : List Char) : Option JVal :=
  match l with
  | [] => none
  | (k', v) :: r => if k' = k then some v else bget r k

/-- Hashable Python values that can occupy a dict key slot: `None`
(also the value of JSON `null`), booleans, numbers, strings. -/
inductive HKey where
  | none
  | bool (b : Bool)
  | num (q : ℚ)
  | str (s : List Char)

/-- `int(b)`: the numeric value of a Python `bool`. -/
def hnum (b : Bool) : ℚ := if b then 1 else 0

/-- Python `==` on hashable values: `bool` is an `int` subclass, so
`True == 1` and `False == 0`; `None` equals only `None`; strings compare
by their characters; values of different kinds otherwise compare
unequal. -/
def hkeyEq : HKey → HKey → Bool
  | .none, .none => true
  | .bool a, .bool b => a == b
  | .bool a, .num b => hnum a == b
  | .num a, .bool b => a == hnum b
  | .num a, .num b => a == b
  | .str a, .str b => a == b
  | _, _ => false

/-- The key slot a Python value occupies, or `none` when the value is
unhashable (a parsed JSON array or object), in which case the dict
operation raises `TypeError`.  Python `None` and JSON `null` are the same
value. -/
def toHKey : Option JVal → Option HKey
  | Option.none => some .none
  | some .null => some .none
  | some (.bool b) => some (.bool b)
  | some (.num q) => some (.num q)
  | some (.str s) => some (.str s)
  | some (.arr _) => Option.none
  | some (.obj _) => Option.none

/-- The module-level `items` dict: hashable keys, possibly-`None` values. -/
abbrev Store := List (HKey × Option JVal)

/-- `key in items` on an already-hashed key. -/
def hasKeyH : Store → HKey → Bool
  | [], _ => false
  | (k', _) :: r, k => hkeyEq k' k || hasKeyH r k

/-- `items[key] = value` on an already-hashed key: replace the value at an
`==`-equal key (keeping the first-inserted key object), else append. -/
def dputH : Store → HKey → Option JVal → Store
  | [], k, v => [(k, v)]
  | (k', v') :: r, k, v =>
    if hkeyEq k' k then (k', v) :: r else (k', v') :: dputH r k v

/-- `del items[key]` on an already-hashed key. -/
def ddelH : Store → HKey → Store
  | [], _ => []
  | (k', v') :: r, k => if hkeyEq k' k then r else (k', v') :: ddelH r k

/-- `key in items`; `none` is the uncaught `TypeError` on an unhashable
key. -/
def hasKey (items : Store) (key : Option JVal) : Option Bool :=
  (toHKey key).map (fun k => hasKeyH items k)

/-- `items[key] = value`; `none` is the uncaught `TypeError` on an
unhashable key. -/
def dput (items : Store) (key value : Option JVal) : Option Store :=
  (toHKey key).map (fun k => dputH items k value)

/-- `del items[key]`; `none` is the uncaught `TypeError` on an unhashable
key. -/
def ddel (items : Store) (key : Option JVal) : Option Store :=
  (toHKey key).map (fun k => ddelH items k)

/-- The three response dict shapes of the module: `{"error": msg}`,
`{"message": msg, "items": items}`, and `{"items": items}`. -/
inductive Resp where
  | err (msg : List Char)
  | msgItems (msg : List Char) (its : Store)
  | itemsOnly (its : Store)

/-- `handle_create(data)`; `Except.error ()` is the uncaught `TypeError`
from `items[item_id] = name` on an unhashable (truthy array/object) id. -/
def handle_create (body : List (List Char × JVal)) (items : Store) :
    Except Unit (Resp × Nat × Store) :=
  let item_id := bget body ("id".toList)
  let name := bget body ("name".toList)
  if !truthyOpt item_id || !truthyOpt name then
    .ok (.err ("id and name required".toList), 400, items)
  else
    match dput items item_id name with
    | none => .error ()
    | some items' => .ok (.msgItems ("created".toList) items', 200, items')

/-- `handle_update(data)`; `Except.error ()` is the uncaught `TypeError`
from `item_id not in items` on an unhashable id. -/
def handle_update (body : List (List Char × JVal)) (items : Store) :
    Except Unit (Resp × Nat × Store) :=
  let item_id := bget body ("id".toList)
  let name := bget body ("name".toList)
  match hasKey items item_id with
  | none => .error ()
  | some false => .ok (.err ("item not found".toList), 404, items)
  | some true =>
    match dput items item_id name with
    | none => .error ()
    | some items' => .ok (.msgItems ("updated".toList) items', 200, items')

/-- `handle_delete(data)`; `Except.error ()` is the uncaught `TypeError`
from `item_id not in items` on an unhashable id. -/
def handle_delete (body : List (List Char × JVal)) (items : Store) :
    Except Unit (Resp × Nat × Store) :=
  let item_id := bget body ("id".toList)
  match hasKey items item_id with
  | none => .error ()
  | some false => .ok (.err ("item not found".toList), 404, items)
  | some true =>
    match ddel items item_id with
    | none => .error ()
    | some items' => .ok (.msgItems ("deleted".toList) items', 200, items')

/-- `handle_list(data)` (the body is unused; never raises). -/
def handle_list (_body : List (List Char × JVal)) (items : Store) :
    Except Unit (Resp × Nat × Store) :=
  .ok (.itemsOnly items, 200, items)

/-- Python `action == s` for a string literal `s`: true exactly when
`action` is that string (`None`, numbers, booleans, lists and dicts all
compare unequal to a `str`). -/
def actionIs (action : Option JVal) (s : List Char) : Bool :=
  match action with
  | some (.str t) => t == s
  | _ => false

/-- `api_router()`: the single `POST /api` endpoint, from parsed body and
current store to response, status and new store; exceptions raised by the
dispatched handler propagate. -/
def api_router (body : Option JVal) (items : Store) :
    Except Unit (Resp × Nat × Store) :=
  if !truthyOpt body then .ok (.err ("invalid json".toList), 400, items)
  else
    match body with
    | some (.obj l) =>
      let action := bget l ("action".toList)
      if actionIs action ("create".toList) then handle_create l items
      else if actionIs action ("update".toList) then handle_update l items
      else if actionIs action ("delete".toList) then handle_delete l items
      else if actionIs action ("list".toList) then handle_list l items
      else .ok (.err ("unknown action".toList), 400, items)
    | _ => .error ()

/-- `actionIs` against a string literal is equality with that string. -/
theorem actionIs_iff (a : Option JVal) (c : List Char) :
    actionIs a c = true ↔ a = some (.str c) := by
  cases a with
  | none => simp [actionIs]
  | some v => cases v <;> simp [actionIs]

end Day013

/-- Counterexample for C6 as stated: a parsed JSON body that is a truthy
non-object — the bare JSON string `"boom"` — makes `api_router` call
`.get` on a non-dict, raising `AttributeError` (an uncaught 500), instead
of returning status 400. -/
theorem api_router_nondict_crash :
    Day013.truthy (.str ("boom".toList)) = true ∧
    Day013.api_router (some (.str ("boom".toList))) [] = .error () :=
  ⟨rfl, rfl⟩

/-- C6 (amended): `api_router` dispatches totally on JSON-object bodies
only, and the handlers themselves can still raise.  A missing/unparseable
body or a falsy body (including the empty object) yields status 400 with
an error message and an unchanged store; on a nonempty object body it
invokes `handle_create`/`handle_update`/`handle_delete`/`handle_list`
exactly when `action` is the corresponding string — propagating whatever
the handler returns or raises — and returns 400 with an unchanged store
for any other or missing `action`; a truthy non-object body raises
`AttributeError`; and a dispatched create with a truthy unhashable id
(e.g. the array `[1]`) raises `TypeError` instead of responding. -/
theorem api_router_dispatch :
    (∀ items : Day013.Store,
      Day013.api_router none items =
        .ok (.err ("invalid json".toList), 400, items)) ∧
    (∀ (b : Day013.JVal) (items : Day013.Store), Day013.truthy b = false →
      Day013.api_router (some b) items =
        .ok (.err ("invalid json".toList), 400, items)) ∧
    (∀ (l : List (List Char × Day013.JVal)) (items : Day013.Store), l ≠ [] →
      (Day013.bget l ("action".toList) = some (.str ("create".toList)) →
        Day013.api_router (some (.obj l)) items = Day013.handle_create l items) ∧
      (Day013.bget l ("action".toList) = some (.str ("update".toList)) →
        Day013.api_router (some (.obj l)) items = Day013.handle_update l items) ∧
      (Day013.bget l ("action".toList) = some (.str ("delete".toList)) →
        Day013.api_router (some (.obj l)) items = Day013.handle_delete l items) ∧
      (Day013.bget l ("action".toList) = some (.str ("list".toList)) →
        Day013.api_router (some (.obj l)) items = Day013.handle_list l items) ∧
      (Day013.bget l ("action".toList) ∉
          [some (Day013.JVal.str ("create".toList)), some (.str ("update".toList)),
            some (.str ("delete".toList)), some (.str ("list".toList))] →
        Day013.api_router (some (.obj l)) items =
          .ok (.err ("unknown action".toList), 400, items))) ∧
    (∀ (b : Day013.JVal) (items : Day013.Store), Day013.truthy b = true →
      (∀ m : List (List Char × Day013.JVal), b ≠ .obj m) →
      Day013.api_router (some b) items = .error ()) ∧
    Day013.api_router (some (.obj [(("action".toList), .str ("create".toList)),
        (("id".toList), .arr [.num 1]), (("name".toList), .str ("x".toList))])) [] =
      .error () := by
  refine ⟨fun items => rfl, ?_, ?_, ?_, rfl⟩
  · intro b items hb
    simp [Day013.api_router, Day013.truthyOpt, hb]
  · intro l items hl
    have ht : Day013.truthy (.obj l) = true := by
      cases l with
      | nil => exact absurd rfl hl
      | cons e r => rfl
    refine ⟨?_, ?_, ?_, ?_, ?_⟩
    · intro h
      simp only [Day013.api_router, Day013.truthyOpt, ht]
      rw [h]
      simp [Day013.actionIs]
    · intro h
      simp only [Day013.api_router, Day013.truthyOpt, ht]
      rw [h]
      simp [Day013.actionIs]
    · intro h
      simp only [Day013.api_router, Day013.truthyOpt, ht]
      rw [h]
      simp [Day013.actionIs]
    · intro h
      simp only [Day013.api_router, Day013.truthyOpt, ht]
      rw [h]
      simp [Day013.actionIs]
    · intro hm
      simp only [List.mem_cons, List.mem_singleton, not_or] at hm
      obtain ⟨h1, h2, h3, h4, -⟩ := hm
      have f1 : Day013.actionIs (Day013.bget l ("action".toList))
          ("create".toList) = false :=
        Bool.eq_false_iff.mpr (fun hEq => h1 ((Day013.actionIs_iff _ _).mp hEq))
      have f2 : Day013.actionIs (Day013.bget l ("action".toList))
          ("update".toList) = false :=
        Bool.eq_false_iff.mpr (fun hEq => h2 ((Day013.actionIs_iff _ _).mp hEq))
      have f3 : Day013.actionIs (Day013.bget l ("action".toList))
          ("delete".toList) = false :=
        Bool.eq_false_iff.mpr (fun hEq => h3 ((Day013.actionIs_iff _ _).mp hEq))
      have f4 : Day013.actionIs (Day013.bget l ("action".toList))
          ("list".toList) = false :=
        Bool.eq_false_iff.mpr (fun hEq => h4 ((Day013.actionIs_iff _ _).mp hEq))
      simp only [Day013.api_router, Day013.truthyOpt, ht, f1, f2, f3, f4]
      simp
  · intro b items htr hne
    cases b with
    | null => simp [Day013.truthy] at htr
    | bool x => simp [Day013.api_router, Day013.truthyOpt, htr]
    | num q => simp [Day013.api_router, Day013.truthyOpt, htr]
    | str s => simp [Day013.api_router, Day013.truthyOpt, htr]
    | arr m => simp [Day013.api_router, Day013.truthyOpt, htr]
    | obj m => exact absurd rfl (hne m)

/-- Witness for C6: the `list` dispatch on a concrete one-entry object
body, and the 400 response on the falsy body `false`. -/
theorem api_router_dispatch_witness :
    Day013.api_router (some (.obj [(("action".toList), .str ("list".toList))])) [] =
      Day013.handle_list [(("action".toList), .str ("list".toList))] [] ∧
    Day013.api_router (some (.bool false)) [] =
      .ok (.err ("invalid json".toList), 400, []) :=
  ⟨((api_router_dispatch.2.2.1 _ [] (List.cons_ne_nil _ _)).2.2.2.1) rfl,
   api_router_dispatch.2.1 _ [] rfl⟩
